import Mathlib

/-!
# Verification of the SLCAN serial CAN adapter driver (`uavcan/driver/slcan.py`)

A shallow embedding of the driver's pure logic:

* the byte-level primitives the Python code relies on (`int(s, 16)`,
  `binascii.a2b_hex`, `%X`/`%d` formatting, byte-string indexing and slicing
  with Python's negative-index normalization);
* the frame encoder `_send_frame` (the wire line it builds);
* the streaming frame decoder embedded in `_rx_thread` (the scan/parse loop
  over the retained buffer, lines 141-203 of the source), including its
  buffer-retention behavior across reads;
* the adapter handshake `_wait_for_ack` / `_init_adapter`, the IO-process
  startup signalling, and the facade's `receive` argument handling.

Machine integers are modelled as `Nat`/`Int`; bytes are `Nat` values
(`0 ≤ b < 256` on every byte the transport can deliver); fallible Python
operations return `Option`/`Except`.  Scan positions are natural numbers: on
every input treated by the theorems below the source's position arithmetic
stays nonnegative, and `Int.toNat` is applied only where the source value is
provably nonnegative.
-/

namespace Slcan

/-! ## Python byte-level primitives -/

/-- Value of one ASCII hex digit, case-insensitive (`0-9`, `A-F`, `a-f`),
as accepted by Python's `int(s, 16)` and `binascii.a2b_hex`. -/
def hexVal (c : Nat) : Option Nat :=
  if 48 ≤ c ∧ c ≤ 57 then some (c - 48)
  else if 65 ≤ c ∧ c ≤ 70 then some (c - 55)
  else if 97 ≤ c ∧ c ≤ 102 then some (c - 87)
  else none

/-- Fold a hex-digit string onto an accumulator; `none` on the first
non-hex-digit byte. -/
def parseHexAux : List Nat → Nat → Option Nat
  | [], acc => some acc
  | c :: cs, acc =>
    match hexVal c with
    | none => none
    | some v => parseHexAux cs (16 * acc + v)

/-- The hex-digit core of Python `int(s, 16)`: the value of a nonempty string
of case-insensitive hex digits, `none` otherwise.  `int` itself additionally
accepts surrounding whitespace, a sign, a `0x`/`0X` prefix, and underscores
between digits; `pyInt16` below models that full acceptance, the two agree on
pure hex-digit strings (`pyInt16_of_pyIntHex`), and the parse-error theorems
assume `pyInt16 _ = none`, where `int` raises as well. -/
def pyIntHex (s : List Nat) : Option Nat :=
  if s.isEmpty then none else parseHexAux s 0

/-- The whitespace bytes Python's `int` string parser strips at both ends:
`\t`, `\n`, `\v`, `\f`, `\r` and space. -/
def pyWs (b : Nat) : Bool :=
  decide (b = 9 ∨ b = 10 ∨ b = 11 ∨ b = 12 ∨ b = 13 ∨ b = 32)

/-- Strip leading and trailing parser whitespace, as `int` does. -/
def pyStrip (s : List Nat) : List Nat :=
  ((s.dropWhile pyWs).reverse.dropWhile pyWs).reverse

/-- Continuation of the digit part of an `int(_, 16)` literal after its first
digit: further hex digits, with single underscores allowed between digits and
rejected when doubled, trailing, or followed by a non-digit. -/
def pyIntDigitsAux : List Nat → Nat → Option Nat
  | [], acc => some acc
  | c :: rest, acc =>
    if c = 95 then
      match rest with
      | [] => none
      | c2 :: rest2 =>
        match hexVal c2 with
        | some v => pyIntDigitsAux rest2 (16 * acc + v)
        | none => none
    else
      match hexVal c with
      | some v => pyIntDigitsAux rest (16 * acc + v)
      | none => none

/-- The digit part of an `int(_, 16)` literal: at least one hex digit, single
underscores between digits. -/
def pyIntDigits : List Nat → Option Nat
  | [] => none
  | c :: rest =>
    match hexVal c with
    | none => none
    | some v => pyIntDigitsAux rest v

/-- Python `int(s, 16)` on an ASCII byte string (exact for the `bytes`
argument form, where every non-ASCII byte raises; for a decoded `str`
argument the grammar coincides on ASCII text): surrounding whitespace, an
optional sign, an optional `0x`/`0X` prefix (an underscore may follow the
prefix), then hex digits with single underscores between digits; anything
else raises `ValueError` (`none`). -/
def pyInt16 (s : List Nat) : Option Int :=
  let s1 := pyStrip s
  let sgn : Int := if s1.headD 0 = 45 then -1 else 1
  let s2 := if s1.headD 0 = 43 ∨ s1.headD 0 = 45 then s1.tail else s1
  let s3 :=
    if s2.headD 0 = 48 ∧ (s2.tail.headD 0 = 120 ∨ s2.tail.headD 0 = 88) then
      (if s2.tail.tail.headD 0 = 95 then s2.tail.tail.tail else s2.tail.tail)
    else s2
  match pyIntDigits s3 with
  | none => none
  | some v => some (sgn * v)

/-- Python `binascii.a2b_hex`: pairs of case-insensitive hex digits to bytes;
odd length or a non-hex-digit byte raises (`none`). -/
def pyA2bHex : List Nat → Option (List Nat)
  | [] => some []
  | [_] => none
  | c1 :: c2 :: cs =>
    match hexVal c1, hexVal c2 with
    | some hi, some lo =>
      match pyA2bHex cs with
      | some bs => some ((16 * hi + lo) :: bs)
      | none => none
    | _, _ => none

/-- Base-16 digits, most significant first; the fuel argument only bounds the
recursion depth (`n < fuel` always holds at use sites). -/
def natHexDigitsAux : Nat → Nat → List Nat
  | 0, _ => []
  | fuel + 1, n => if n < 16 then [n] else natHexDigitsAux fuel (n / 16) ++ [n % 16]

/-- Base-16 digits of `n`, most significant first (at least one digit). -/
def natHexDigits (n : Nat) : List Nat := natHexDigitsAux (n + 1) n

/-- Digit value `d < 16` to its uppercase ASCII hex character. -/
def upperHexChar (d : Nat) : Nat := if d < 10 then 48 + d else 55 + d

/-- Digit value `d < 16` to its lowercase ASCII hex character. -/
def lowerHexChar (d : Nat) : Nat := if d < 10 then 48 + d else 87 + d

/-- Python `'%X' % n`: uppercase hex digits of `n`. -/
def pyFormatHexUpper (n : Nat) : List Nat := (natHexDigits n).map upperHexChar

/-- Python `'%0wX' % n`: uppercase hex, zero-padded on the left to width `w`
(never truncated). -/
def pyHexPadUpper (n w : Nat) : List Nat :=
  List.replicate (w - (pyFormatHexUpper n).length) 48 ++ pyFormatHexUpper n

/-- Base-10 digits, most significant first, with a fuel bound as above. -/
def natDecDigitsAux : Nat → Nat → List Nat
  | 0, _ => []
  | fuel + 1, n => if n < 10 then [n] else natDecDigitsAux fuel (n / 10) ++ [n % 10]

/-- Base-10 digits of `n`, most significant first. -/
def natDecDigits (n : Nat) : List Nat := natDecDigitsAux (n + 1) n

/-- Python `'%d' % n` for `n ≥ 0`: decimal ASCII digits. -/
def pyFormatDec (n : Nat) : List Nat := (natDecDigits n).map (· + 48)

/-- Python `binascii.b2a_hex`: each byte to two lowercase hex characters. -/
def b2aHex : List Nat → List Nat
  | [] => []
  | b :: bs => lowerHexChar (b / 16) :: lowerHexChar (b % 16) :: b2aHex bs

/-- Python `buf[i]` on a byte string: direct for `0 ≤ i < len`, wrapped from
the end for `-len ≤ i < 0`, `IndexError` (`none`) otherwise. -/
def pyIndex (buf : List Nat) (i : Int) : Option Nat :=
  if 0 ≤ i ∧ i < buf.length then buf[i.toNat]?
  else if -(buf.length : Int) ≤ i ∧ i < 0 then buf[(buf.length + i).toNat]?
  else none

/-- Python `buf[a:b]` slice normalization: negative bounds count from the end,
bounds are clamped into `[0, len]`, and an empty slice results when the
normalized start is not below the normalized stop. -/
def pySlice (buf : List Nat) (a b : Int) : List Nat :=
  (buf.take (if b < 0 then max 0 ((buf.length : Int) + b) else min b buf.length).toNat).drop
    (if a < 0 then max 0 ((buf.length : Int) + a) else min a buf.length).toNat

/-! ## Frames (`CANFrame` from `uavcan/driver/common.py`)

A received frame additionally records the parsed hardware timestamp (the raw
counter before the source's `* 1e-3` scaling); its presence decides whether
the frame's host timestamps come from the clock estimators or from the
locally captured clocks, which is the only aspect the claims depend on. -/

structure TxFrame where
  id : Nat
  data : List Nat
  extended : Bool
  deriving DecidableEq, Repr

structure RxFrame where
  id : Nat
  data : List Nat
  extended : Bool
  tsHardware : Option Nat
  deriving DecidableEq, Repr

/-- A CAN frame satisfying the data-model invariant: payload at most 8 bytes
of byte values, identifier fitting the width implied by the extended flag. -/
def ValidTx (f : TxFrame) : Prop :=
  f.data.length ≤ 8 ∧ (∀ b ∈ f.data, b < 256) ∧
    (if f.extended then f.id < 2 ^ 29 else f.id < 2 ^ 11)

instance : DecidablePred ValidTx := fun f => by
  unfold ValidTx; infer_instance

/-- The receive-path image of a frame decoded from its own encoding:
same identifier, payload and extended flag, no hardware timestamp. -/
def rxOf (f : TxFrame) : RxFrame := ⟨f.id, f.data, f.extended, none⟩

/-! ## Encoder (`_send_frame`, source lines 218-224) -/

/-- The wire line `_send_frame` writes:
`('T%08X' if extended else 't%03X') % id`, then `'%d' % len(data)`, then
`b2a_hex(data)`, then `'\r'`.  No timestamp field exists on this path. -/
def send_frame_line (f : TxFrame) : List Nat :=
  (if f.extended then 84 :: pyHexPadUpper f.id 8 else 116 :: pyHexPadUpper f.id 3)
    ++ pyFormatDec f.data.length ++ b2aHex f.data ++ [13]

/-! ## Decoder (`_rx_thread` parse loop, source lines 141-203) -/

/-- The byte set `b'0123456789ABCDEF'` used by the timestamp-presence peek
(source line 174): decimal digits and uppercase `A`-`F` only. -/
def isUpperHexDigit (b : Nat) : Bool :=
  decide ((48 ≤ b ∧ b ≤ 57) ∨ (65 ≤ b ∧ b ≤ 70))

/-- Result of attempting to parse one fragment at a marker position:
`needMoreData` models the `break` paths (buffer retained from the marker),
`success` the frame-emitting path, `failure` the `except` path with the
position scanning resumes from. -/
inductive ParseOutcome where
  | needMoreData : ParseOutcome
  | success : RxFrame → Nat → ParseOutcome
  | failure : Nat → ParseOutcome
  deriving DecidableEq, Repr

/-- One iteration of the `try` block at a marker position (source lines
151-189), with the source's statement order: header availability check, hex
identifier parse, length digit (`buf[pos+1+id_len] - 48`, an `Int` since the
byte may be below `'0'`), length bound, total-length availability check,
timestamp-presence peek at the terminator position, extended availability
check, payload `a2b_hex`, position advance, and only then the timestamp
parse — so a timestamp parse error is raised after `pos` was advanced.
The identifier and timestamp parses use the strict hex core `pyIntHex`; the
theorems below exercise their success paths only on pure hex digits and their
failure paths only under `pyInt16 _ = none`, on both of which `pyIntHex`
agrees with Python's `int(_, 16)` (`pyInt16_of_pyIntHex`). -/
def parseAt (buf : List Nat) (pos : Nat) : ParseOutcome :=
  let idLen : Nat := if buf.getD pos 0 = 84 then 8 else 3
  let avail : Nat := buf.length - pos
  if avail < idLen + 2 then .needMoreData
  else
    match pyIntHex (pySlice buf ((pos : Int) + 1) ((pos : Int) + 1 + idLen)) with
    | none => .failure (pos + 1)
    | some packet_id =>
      let packet_len : Int := (buf.getD (pos + 1 + idLen) 0 : Int) - 48
      if 8 < packet_len then .failure (pos + 1)
      else
        let total0 : Int := 2 + idLen + packet_len * 2 + 1
        if (avail : Int) < total0 then .needMoreData
        else
          match pyIndex buf ((pos : Int) + total0 - 1) with
          | none => .failure (pos + 1)
          | some peek =>
            let with_timestamp : Bool := isUpperHexDigit peek
            let total : Int := if with_timestamp then total0 + 3 else total0
            if with_timestamp = true ∧ (avail : Int) < total then .needMoreData
            else
              match pyA2bHex (pySlice buf ((pos : Int) + 2 + idLen)
                  ((pos : Int) + 2 + idLen + packet_len * 2)) with
              | none => .failure (pos + 1)
              | some packet_data =>
                let newPos : Nat := ((pos : Int) + total).toNat
                if with_timestamp then
                  match pyIntHex (pySlice buf ((newPos : Int) - 4) (newPos : Int)) with
                  | none => .failure (newPos + 1)
                  | some ts => .success ⟨packet_id, packet_data, idLen == 8, some ts⟩ newPos
                else .success ⟨packet_id, packet_data, idLen == 8, none⟩ newPos

/-- Body of the marker-hunting inner `while`, recursing on the number of
positions left to examine. -/
def skipToMarkerAux : Nat → List Nat → Nat → Nat
  | 0, _, pos => pos
  | fuel + 1, buf, pos =>
    if pos < buf.length then
      if buf.getD pos 0 = 84 ∨ buf.getD pos 0 = 116 then pos
      else skipToMarkerAux fuel buf (pos + 1)
    else pos

/-- The marker-hunting inner `while` (source lines 145-146): first position at
or after `pos` holding `'T'` (84) or `'t'` (116), or the buffer length. -/
def skipToMarker (buf : List Nat) (pos : Nat) : Nat :=
  skipToMarkerAux (buf.length - pos) buf pos

/-- The outer `while True` scan loop (source lines 143-200): skip to the next
marker, stop at end of buffer or on a need-more-data break, emit frames in
order, resume from the position an `except` handler left.  The fuel argument
bounds the number of iterations; every theorem below supplies enough. -/
def processLoop : Nat → List Nat → Nat → List RxFrame × Nat
  | 0, _, pos => ([], pos)
  | fuel + 1, buf, pos =>
    let pos2 := skipToMarker buf pos
    if pos2 < buf.length then
      match parseAt buf pos2 with
      | .needMoreData => ([], pos2)
      | .success fr newPos =>
        let r := processLoop fuel buf newPos
        (fr :: r.1, r.2)
      | .failure newPos => processLoop fuel buf newPos
    else ([], pos2)

/-- Parsing one read's worth of buffer (source lines 141-203): the frames put
on the RX queue, in order, and the final scan position `pos` — the source then
retains `buf[pos:]` for the next read. -/
def rx_process_buffer (buf : List Nat) : List RxFrame × Nat :=
  processLoop (buf.length + 1) buf 0

/-- Feeding the decoder a sequence of reads (source lines 127-203): each read
is appended to the retained tail, parsed, and the unconsumed tail kept for the
next read.  Returns all frames emitted, in order. -/
def rx_feed_chunks : List (List Nat) → List Nat → List RxFrame
  | [], _ => []
  | c :: cs, leftover =>
    let buf := leftover ++ c
    let r := rx_process_buffer buf
    r.1 ++ rx_feed_chunks cs (buf.drop r.2)

/-! ## Errors and the adapter handshake (`_wait_for_ack`, `_init_adapter`) -/

/-- The Python exceptions the modelled paths can raise. -/
inductive PyError where
  | keyError : PyError
  | typeError : PyError
  | driverError : String → PyError
  deriving DecidableEq, Repr

/-- `ACK = b'\r'`. -/
def ACK : Nat := 13

/-- `NACK = b'\x07'`. -/
def NACK : Nat := 7

/-- `_wait_for_ack` (source lines 70-79) over the stream of successive
`conn.read(1)` results: `none` models a read that returned no byte within
`ACK_TIMEOUT` (and an exhausted stream reads as no byte).  Any byte that is
neither `NACK` nor `ACK` is discarded and the loop reads again; on `ACK` the
unread remainder of the stream is returned. -/
def wait_for_ack : List (Option Nat) → Except PyError (List (Option Nat))
  | [] => .error (.driverError "SLCAN ACK timeout")
  | none :: _ => .error (.driverError "SLCAN ACK timeout")
  | some b :: rest =>
    if b = NACK then .error (.driverError "SLCAN NACK in response")
    else if b = ACK then .ok rest
    else wait_for_ack rest

/-- `DEFAULT_BITRATE = 1000000`. -/
def DEFAULT_BITRATE : Nat := 1000000

/-- The `speed_code` dictionary lookup in `_init_adapter` (source lines
82-93): `none` is the `KeyError` on an unknown bit rate. -/
def speed_code : Nat → Option Nat
  | 1000000 => some 8
  | 8000000 => some 7
  | 500000 => some 6
  | 250000 => some 5
  | 125000 => some 4
  | 100000 => some 3
  | 50000 => some 2
  | 20000 => some 1
  | 10000 => some 0
  | _ => none

/-- The `'S<code>\r'` set-bitrate command bytes. -/
def sCmd (code : Nat) : List Nat := [83] ++ pyFormatDec code ++ [13]

/-- The `b'O\r'` open-channel command bytes. -/
def oCmd : List Nat := [79, 13]

/-- `_init_adapter` (source lines 82-111): dictionary lookup of the speed
code (a `KeyError` escapes before anything is written), set-bitrate command,
ACK wait, open-channel command, ACK wait.  The read stream models the bytes
readable after the first `flushInput`; the second component lists the
commands written, in order, up to the point of failure. -/
def init_adapter (bitrate : Option Nat) (rx : List (Option Nat)) :
    Except PyError Unit × List (List Nat) :=
  match speed_code (bitrate.getD DEFAULT_BITRATE) with
  | none => (.error .keyError, [])
  | some code =>
    match wait_for_ack rx with
    | .error e => (.error e, [sCmd code])
    | .ok rx2 =>
      match wait_for_ack rx2 with
      | .error e => (.error e, [sCmd code, oCmd])
      | .ok _ => (.ok (), [sCmd code, oCmd])

/-! ## IO-process startup signalling and the facade (`_io_process`, `SLCAN`) -/

/-- A message on the inter-process RX queue. -/
inductive IpcMsg where
  | initOk : IpcMsg
  | frame : RxFrame → IpcMsg
  | errMsg : PyError → IpcMsg
  deriving DecidableEq, Repr

/-- The messages `_io_process` (source lines 252-318) puts on the RX queue
during startup, paired with the exception the process dies with, if any:
on `_init_adapter` failure the exception propagates out of the process —
nothing is enqueued — and on success `IPC_SIGNAL_INIT_OK` is enqueued. -/
def io_process_startup (bitrate : Option Nat) (rx : List (Option Nat)) :
    List IpcMsg × Option PyError :=
  match (init_adapter bitrate rx).1 with
  | .error e => ([], some e)
  | .ok _ => ([IpcMsg.initOk], none)

/-- The `SLCAN.__init__` readiness wait (source lines 341-351) over the
messages that arrive on the RX queue before the deadline: every message other
than `IPC_SIGNAL_INIT_OK` is discarded, and an exhausted queue is the
deadline path, which raises the generic confirmation failure. -/
def start_wait : List IpcMsg → Except PyError Unit
  | [] => .error (.driverError "IO process did not confirm initialization")
  | .initOk :: _ => .ok ()
  | .frame _ :: rest => start_wait rest
  | .errMsg _ :: rest => start_wait rest

/-- An item the facade can pull off the RX queue in `receive`. -/
inductive RxItem where
  | frame : RxFrame → RxItem
  | exc : PyError → RxItem
  | other : RxItem
  deriving DecidableEq, Repr

/-- Python 3 `max(timeout, 0.001)` in `SLCAN.receive` (source line 371):
comparing `None` with a float raises `TypeError`. -/
def pyMaxTimeout : Option ℚ → ℚ → Except PyError ℚ
  | none, _ => .error .typeError
  | some t, floor => .ok (max t floor)

/-- `SLCAN.receive` (source lines 367-382): the liveness check, the timeout
clamp, then the queue wait — `queue` lists the items available within the
wait (empty models `queue.Empty`, returning `None`). -/
def SLCAN_receive (procAlive : Bool) (timeout : Option ℚ) (queue : List RxItem) :
    Except PyError (Option RxFrame) :=
  if procAlive = false then .error (.driverError "IO process is dead :(")
  else
    match pyMaxTimeout timeout (1 / 1000) with
    | .error e => .error e
    | .ok _ =>
      match queue with
      | [] => .ok none
      | .frame f :: _ => .ok (some f)
      | .exc e :: _ => .error e
      | .other :: _ => .error (.driverError "Unexpected entity in IPC channel")

/-! ## Hex formatting and parsing round-trips -/

theorem hexVal_upperHexChar (d : Nat) (hd : d < 16) : hexVal (upperHexChar d) = some d := by
  unfold hexVal upperHexChar
  by_cases h : d < 10
  · rw [if_pos h, if_pos (by omega : 48 ≤ 48 + d ∧ 48 + d ≤ 57)]
    congr 1
    omega
  · rw [if_neg h, if_neg (by omega : ¬(48 ≤ 55 + d ∧ 55 + d ≤ 57)),
      if_pos (by omega : 65 ≤ 55 + d ∧ 55 + d ≤ 70)]
    congr 1
    omega

theorem hexVal_lowerHexChar (d : Nat) (hd : d < 16) : hexVal (lowerHexChar d) = some d := by
  unfold hexVal lowerHexChar
  by_cases h : d < 10
  · rw [if_pos h, if_pos (by omega : 48 ≤ 48 + d ∧ 48 + d ≤ 57)]
    congr 1
    omega
  · rw [if_neg h, if_neg (by omega : ¬(48 ≤ 87 + d ∧ 87 + d ≤ 57)),
      if_neg (by omega : ¬(65 ≤ 87 + d ∧ 87 + d ≤ 70)),
      if_pos (by omega : 97 ≤ 87 + d ∧ 87 + d ≤ 102)]
    congr 1
    omega

theorem parseHexAux_append (xs ys : List Nat) (acc : Nat) :
    parseHexAux (xs ++ ys) acc = (parseHexAux xs acc).bind (fun m => parseHexAux ys m) := by
  induction xs generalizing acc with
  | nil => simp [parseHexAux]
  | cons c cs ih =>
    simp only [List.cons_append, parseHexAux]
    cases h : hexVal c <;> simp [h, ih]

theorem natHexDigits_ne_nil (n : Nat) : natHexDigits n ≠ [] := by
  unfold natHexDigits natHexDigitsAux
  split <;> simp

theorem parseHexAux_digitsAux :
    ∀ fuel n acc, n < fuel →
      parseHexAux ((natHexDigitsAux fuel n).map upperHexChar) acc
        = some (acc * 16 ^ (natHexDigitsAux fuel n).length + n) := by
  intro fuel
  induction fuel with
  | zero => intro n acc h; omega
  | succ fuel ih =>
    intro n acc h
    by_cases h16 : n < 16
    · simp only [natHexDigitsAux, if_pos h16, List.map_cons, List.map_nil,
        List.length_cons, List.length_nil, parseHexAux, hexVal_upperHexChar n h16]
      congr 1
      ring
    · have hdiv : n / 16 < n := Nat.div_lt_self (by omega) (by omega)
      simp only [natHexDigitsAux, if_neg h16, List.map_append, List.map_cons, List.map_nil]
      rw [parseHexAux_append, ih (n / 16) acc (by omega)]
      show parseHexAux [upperHexChar (n % 16)] _ = _
      simp only [parseHexAux, hexVal_upperHexChar (n % 16) (by omega)]
      simp only [List.length_append, List.length_cons, List.length_nil]
      congr 1
      have hdm : 16 * (n / 16) + n % 16 = n := Nat.div_add_mod n 16
      calc 16 * (acc * 16 ^ (natHexDigitsAux fuel (n / 16)).length + n / 16) + n % 16
          = 16 * (acc * 16 ^ (natHexDigitsAux fuel (n / 16)).length)
              + (16 * (n / 16) + n % 16) := by
            ring
        _ = acc * 16 ^ ((natHexDigitsAux fuel (n / 16)).length + (0 + 1)) + n := by
            rw [hdm]
            ring

theorem parseHexAux_digits (n acc : Nat) :
    parseHexAux ((natHexDigits n).map upperHexChar) acc
      = some (acc * 16 ^ (natHexDigits n).length + n) :=
  parseHexAux_digitsAux (n + 1) n acc (by omega)

theorem length_natHexDigitsAux_le :
    ∀ fuel w n, n < fuel → n < 16 ^ w → 1 ≤ w → (natHexDigitsAux fuel n).length ≤ w := by
  intro fuel
  induction fuel with
  | zero => intro w n h; omega
  | succ fuel ih =>
    intro w n hf hn hw
    by_cases h16 : n < 16
    · simp only [natHexDigitsAux, if_pos h16, List.length_cons, List.length_nil]
      omega
    · rcases w with _ | w2
      · omega
      rcases w2 with _ | w3
      · exfalso
        norm_num at hn
        omega
      · have hdivlt : n / 16 < n := Nat.div_lt_self (by omega) (by omega)
        have hdiv : n / 16 < 16 ^ (w3 + 1) := by
          rw [Nat.div_lt_iff_lt_mul (by omega)]
          calc n < 16 ^ (w3 + 1 + 1) := hn
            _ = 16 ^ (w3 + 1) * 16 := by ring
        have := ih (w3 + 1) (n / 16) (by omega) hdiv (by omega)
        simp only [natHexDigitsAux, if_neg h16, List.length_append, List.length_cons,
          List.length_nil]
        omega

theorem length_natHexDigits_le (w n : Nat) (h : n < 16 ^ w) (hw : 1 ≤ w) :
    (natHexDigits n).length ≤ w :=
  length_natHexDigitsAux_le (n + 1) w n (by omega) h hw

theorem parseHexAux_replicate48 (k : Nat) : parseHexAux (List.replicate k 48) 0 = some 0 := by
  induction k with
  | zero => rfl
  | succ k ih =>
    simpa [List.replicate_succ, parseHexAux, show hexVal 48 = some 0 from by decide] using ih

theorem pyIntHex_pad (n w : Nat) : pyIntHex (pyHexPadUpper n w) = some n := by
  unfold pyIntHex pyHexPadUpper pyFormatHexUpper
  have hne : (natHexDigits n).map upperHexChar ≠ [] := by
    simp [natHexDigits_ne_nil n]
  rw [if_neg (by simp [List.isEmpty_iff, hne])]
  rw [parseHexAux_append, parseHexAux_replicate48]
  show parseHexAux _ 0 = some n
  rw [parseHexAux_digits]
  simp

theorem length_pyHexPadUpper (n w : Nat) (h : n < 16 ^ w) (hw : 1 ≤ w) :
    (pyHexPadUpper n w).length = w := by
  unfold pyHexPadUpper pyFormatHexUpper
  have := length_natHexDigits_le w n h hw
  simp only [List.length_append, List.length_replicate, List.length_map] at *
  omega

theorem pyFormatDec_single (n : Nat) (h : n < 10) : pyFormatDec n = [48 + n] := by
  unfold pyFormatDec natDecDigits natDecDigitsAux
  rw [if_pos h]
  simp [Nat.add_comm]

theorem length_b2aHex (data : List Nat) : (b2aHex data).length = 2 * data.length := by
  induction data with
  | nil => rfl
  | cons b bs ih =>
    simp only [b2aHex, List.length_cons, ih]
    omega

theorem pyA2bHex_b2aHex (data : List Nat) (h : ∀ b ∈ data, b < 256) :
    pyA2bHex (b2aHex data) = some data := by
  induction data with
  | nil => rfl
  | cons b bs ih =>
    have hb : b < 256 := h b (by simp)
    have hdm : 16 * (b / 16) + b % 16 = b := Nat.div_add_mod b 16
    simp only [b2aHex, pyA2bHex, hexVal_lowerHexChar (b / 16) (by omega),
      hexVal_lowerHexChar (b % 16) (by omega), ih (fun x hx => h x (by simp [hx])), hdm]

/-! ### The strict hex core sits inside Python's full `int(_, 16)` domain -/

theorem hexVal_isSome_ranges (b : Nat) (h : (hexVal b).isSome) :
    (48 ≤ b ∧ b ≤ 57) ∨ (65 ≤ b ∧ b ≤ 70) ∨ (97 ≤ b ∧ b ≤ 102) := by
  unfold hexVal at h
  split_ifs at h with h1 h2 h3
  · exact Or.inl h1
  · exact Or.inr (Or.inl h2)
  · exact Or.inr (Or.inr h3)
  · simp at h

theorem hex_not_ws (b : Nat) (h : (hexVal b).isSome) : pyWs b = false := by
  have := hexVal_isSome_ranges b h
  simp only [pyWs, decide_eq_false_iff_not]
  omega

theorem parseHexAux_mem_hex :
    ∀ (s : List Nat) (acc v : Nat), parseHexAux s acc = some v →
      ∀ b ∈ s, (hexVal b).isSome := by
  intro s
  induction s with
  | nil =>
    intro acc v _ b hb
    simp at hb
  | cons c rest ih =>
    intro acc v h b hb
    simp only [parseHexAux] at h
    cases hc : hexVal c with
    | none => simp [hc] at h
    | some v0 =>
      simp only [hc] at h
      rcases List.mem_cons.mp hb with rfl | hb2
      · simp [hc]
      · exact ih (16 * acc + v0) v h b hb2

theorem pyIntDigitsAux_of_hex :
    ∀ (s : List Nat) (acc v : Nat), parseHexAux s acc = some v →
      pyIntDigitsAux s acc = some v := by
  intro s
  induction s with
  | nil =>
    intro acc v h
    simpa [pyIntDigitsAux, parseHexAux] using h
  | cons c rest ih =>
    intro acc v h
    have hc : (hexVal c).isSome := parseHexAux_mem_hex (c :: rest) acc v h c (by simp)
    obtain ⟨v0, hv0⟩ := Option.isSome_iff_exists.mp hc
    have hc95 : c ≠ 95 := by
      intro h95
      rw [h95] at hv0
      simp [show hexVal 95 = none from rfl] at hv0
    simp only [parseHexAux, hv0] at h
    rw [pyIntDigitsAux.eq_def]
    simp only [if_neg hc95, hv0]
    exact ih (16 * acc + v0) v h

theorem pyIntDigits_of_pyIntHex (s : List Nat) (v : Nat) (h : pyIntHex s = some v) :
    pyIntDigits s = some v := by
  unfold pyIntHex at h
  cases s with
  | nil => simp at h
  | cons c rest =>
    rw [if_neg (by simp)] at h
    have hc : (hexVal c).isSome := parseHexAux_mem_hex (c :: rest) 0 v h c (by simp)
    obtain ⟨v0, hv0⟩ := Option.isSome_iff_exists.mp hc
    simp only [parseHexAux, hv0] at h
    simp only [pyIntDigits, hv0]
    have h2 : parseHexAux rest v0 = some v := by simpa using h
    exact pyIntDigitsAux_of_hex rest v0 v h2

theorem pyStrip_hex (s : List Nat) (hne : s ≠ []) (h : ∀ b ∈ s, (hexVal b).isSome) :
    pyStrip s = s := by
  obtain ⟨c, rest, rfl⟩ : ∃ c rest, s = c :: rest := by
    cases s with
    | nil => exact absurd rfl hne
    | cons a b => exact ⟨a, b, rfl⟩
  unfold pyStrip
  rw [List.dropWhile_cons, if_neg (by simp [hex_not_ws c (h c (by simp))])]
  obtain ⟨d, t2, ht⟩ : ∃ d t2, (c :: rest).reverse = d :: t2 := by
    cases hrev : (c :: rest).reverse with
    | nil => exact absurd hrev (by simp)
    | cons d t2 => exact ⟨d, t2, rfl⟩
  have hd : d ∈ c :: rest := by
    rw [← List.mem_reverse, ht]
    simp
  rw [ht, List.dropWhile_cons, if_neg (by simp [hex_not_ws d (h d hd)]), ← ht,
    List.reverse_reverse]

/-- A nonempty pure-hex-digit string is accepted by `int(_, 16)` with the same
value: the strict core underapproximates only the failure side. -/
theorem pyInt16_of_pyIntHex (s : List Nat) (v : Nat) (h : pyIntHex s = some v) :
    pyInt16 s = some (v : Int) := by
  have hne : s ≠ [] := by
    intro hnil
    rw [hnil] at h
    simp [pyIntHex] at h
  have hparse : parseHexAux s 0 = some v := by
    unfold pyIntHex at h
    rwa [if_neg (by simp [List.isEmpty_iff, hne])] at h
  have hall : ∀ b ∈ s, (hexVal b).isSome := parseHexAux_mem_hex s 0 v hparse
  obtain ⟨c, rest, rfl⟩ : ∃ c rest, s = c :: rest := by
    cases s with
    | nil => exact absurd rfl hne
    | cons a b => exact ⟨a, b, rfl⟩
  have hstrip : pyStrip (c :: rest) = c :: rest := pyStrip_hex _ hne hall
  have hcr := hexVal_isSome_ranges c (hall c (by simp))
  unfold pyInt16
  rw [hstrip]
  simp only [List.headD_cons, List.tail_cons]
  rw [if_neg (show ¬c = 45 by omega)]
  rw [if_neg (show ¬(c = 43 ∨ c = 45) by omega)]
  simp only [List.headD_cons, List.tail_cons]
  have hpref : ¬(c = 48 ∧ (rest.headD 0 = 120 ∨ rest.headD 0 = 88)) := by
    rintro ⟨h48, h2⟩
    cases rest with
    | nil => simp at h2
    | cons c2 rest2 =>
      have := hexVal_isSome_ranges c2 (hall c2 (by simp))
      simp only [List.headD_cons] at h2
      omega
  rw [if_neg hpref]
  rw [pyIntDigits_of_pyIntHex (c :: rest) v h]
  simp

/-- Contrapositive: where `int(_, 16)` raises, the strict hex core fails
too, so the modelled decoder takes the same exception path. -/
theorem pyIntHex_none_of_pyInt16_none (s : List Nat) (h : pyInt16 s = none) :
    pyIntHex s = none := by
  cases hx : pyIntHex s with
  | none => rfl
  | some v =>
    rw [pyInt16_of_pyIntHex s v hx] at h
    simp at h

/-! ## Indexing and slicing helpers -/

theorem pySlice_nat (l : List Nat) (a b : Nat) (ha : a ≤ l.length) (hb : b ≤ l.length) :
    pySlice l (a : Int) (b : Int) = (l.take b).drop a := by
  unfold pySlice
  rw [if_neg (by omega : ¬(b : Int) < 0), if_neg (by omega : ¬(a : Int) < 0)]
  have h1 : (min (b : Int) l.length).toNat = b := by omega
  have h2 : (min (a : Int) l.length).toNat = a := by omega
  rw [h1, h2]

theorem pySlice_of_append (A mid B : List Nat) (a b : Int)
    (ha : a = A.length) (hb : b = A.length + mid.length) :
    pySlice (A ++ mid ++ B) a b = mid := by
  subst ha hb
  have hcast : ((A.length : Int) + mid.length) = ((A.length + mid.length : Nat) : Int) := by
    push_cast
    ring
  rw [hcast, pySlice_nat _ _ _ (by simp) (by simp)]
  rw [List.append_assoc, List.take_append, List.drop_left]
  exact List.take_left mid B

theorem pyIndex_of_append (A B : List Nat) (k : Nat) (i : Int)
    (hi : i = A.length + k) (hk : k < B.length) :
    pyIndex (A ++ B) i = B[k]? := by
  unfold pyIndex
  have hcond : 0 ≤ i ∧ i < ((A ++ B).length : Int) := by
    simp only [List.length_append]
    push_cast
    omega
  rw [if_pos hcond]
  have htn : i.toNat = A.length + k := by omega
  rw [htn, List.getElem?_append_right (by omega)]
  congr 1
  omega

theorem getD_of_append (A B : List Nat) (k i d : Nat) (hi : i = A.length + k) :
    (A ++ B).getD i d = B.getD k d := by
  subst hi
  rw [List.getD_append_right A B d _ (by omega)]
  congr 1
  omega

/-! ## Evaluating `parseAt` on structured fragments -/

theorem parse_success_core
    (pre idHex hs rest : List Nat) (m idL n term2 pid : Nat) (data : List Nat)
    (hidL : idL = if m = 84 then 8 else 3)
    (hlen : idHex.length = idL)
    (hid : pyIntHex idHex = some pid)
    (hn : n ≤ 8)
    (hhs : hs.length = 2 * n)
    (hdata : pyA2bHex hs = some data)
    (hterm : isUpperHexDigit term2 = false) :
    parseAt (pre ++ m :: idHex ++ (48 + n) :: hs ++ term2 :: rest) pre.length
      = .success ⟨pid, data, idL == 8, none⟩ (pre.length + (idL + 2 * n + 3)) := by
  set B := pre ++ m :: idHex ++ (48 + n) :: hs ++ term2 :: rest with hB
  have f1 : B.getD pre.length 0 = m := by
    rw [hB]
    simpa using getD_of_append pre (m :: idHex ++ (48 + n) :: hs ++ term2 :: rest)
      0 pre.length 0 (by omega)
  have f2 : B.length - pre.length = idL + 2 * n + 3 + rest.length := by
    rw [hB]
    simp only [List.length_append, List.length_cons, hlen, hhs]
    omega
  have f3 : pySlice B ((pre.length : Int) + 1) ((pre.length : Int) + 1 + (idL : Int))
      = idHex := by
    rw [hB]
    have := pySlice_of_append (pre ++ [m]) idHex ((48 + n) :: hs ++ term2 :: rest)
      ((pre.length : Int) + 1) ((pre.length : Int) + 1 + (idL : Int))
      (by simp only [List.length_append, List.length_cons, List.length_nil]; omega)
      (by simp only [List.length_append, List.length_cons, List.length_nil, hlen]; omega)
    simpa using this
  have f4 : B.getD (pre.length + 1 + idL) 0 = 48 + n := by
    rw [hB]
    simpa using getD_of_append (pre ++ m :: idHex) ((48 + n) :: hs ++ term2 :: rest)
      0 (pre.length + 1 + idL) 0
      (by simp only [List.length_append, List.length_cons, hlen]; omega)
  have f5 : ((48 + n : Nat) : Int) - 48 = (n : Int) := by push_cast; ring
  have f6 : pyIndex B ((pre.length : Int) + (2 + (idL : Int) + (n : Int) * 2 + 1) - 1)
      = some term2 := by
    rw [hB]
    have := pyIndex_of_append (pre ++ m :: idHex ++ [48 + n] ++ hs) (term2 :: rest) 0
      ((pre.length : Int) + (2 + (idL : Int) + (n : Int) * 2 + 1) - 1)
      (by simp only [List.length_append, List.length_cons, List.length_nil, hlen, hhs]
          push_cast
          ring)
      (by simp)
    simpa using this
  have f7 : pySlice B ((pre.length : Int) + 2 + (idL : Int))
      ((pre.length : Int) + 2 + (idL : Int) + (n : Int) * 2) = hs := by
    rw [hB]
    have := pySlice_of_append (pre ++ m :: idHex ++ [48 + n]) hs (term2 :: rest)
      ((pre.length : Int) + 2 + (idL : Int))
      ((pre.length : Int) + 2 + (idL : Int) + (n : Int) * 2)
      (by simp only [List.length_append, List.length_cons, List.length_nil, hlen]; omega)
      (by simp only [List.length_append, List.length_cons, List.length_nil, hlen, hhs]
          push_cast
          ring)
    simpa using this
  have f8 : (((pre.length : Int)) + (2 + (idL : Int) + (n : Int) * 2 + 1)).toNat
      = pre.length + (idL + 2 * n + 3) := by omega
  unfold parseAt
  simp only [f1, ← hidL, f2]
  rw [if_neg (show ¬(idL + 2 * n + 3 + rest.length < idL + 2) by omega)]
  simp only [f3, hid, f4, f5]
  rw [if_neg (show ¬(8 : Int) < (n : Int) by omega)]
  rw [if_neg (show ¬((idL + 2 * n + 3 + rest.length : Nat) : Int)
    < 2 + (idL : Int) + (n : Int) * 2 + 1 by push_cast; omega)]
  simp only [f6, hterm, Bool.false_eq_true, false_and, if_false, f7, hdata, f8]

theorem parse_success_ts_core
    (pre idHex hs rest : List Nat) (m idL n t0 t1 t2 t3 pid tsv : Nat) (data : List Nat)
    (hidL : idL = if m = 84 then 8 else 3)
    (hlen : idHex.length = idL)
    (hid : pyIntHex idHex = some pid)
    (hn : n ≤ 8)
    (hhs : hs.length = 2 * n)
    (hdata : pyA2bHex hs = some data)
    (hupper : isUpperHexDigit t0 = true)
    (hts : pyIntHex [t0, t1, t2, t3] = some tsv) :
    parseAt (pre ++ m :: idHex ++ (48 + n) :: hs ++ t0 :: t1 :: t2 :: t3 :: rest) pre.length
      = .success ⟨pid, data, idL == 8, some tsv⟩ (pre.length + (idL + 2 * n + 6)) := by
  set B := pre ++ m :: idHex ++ (48 + n) :: hs ++ t0 :: t1 :: t2 :: t3 :: rest with hB
  have f1 : B.getD pre.length 0 = m := by
    rw [hB]
    simpa using getD_of_append pre (m :: idHex ++ (48 + n) :: hs ++ t0 :: t1 :: t2 :: t3 :: rest)
      0 pre.length 0 (by omega)
  have f2 : B.length - pre.length = idL + 2 * n + 6 + rest.length := by
    rw [hB]
    simp only [List.length_append, List.length_cons, hlen, hhs]
    omega
  have f3 : pySlice B ((pre.length : Int) + 1) ((pre.length : Int) + 1 + (idL : Int))
      = idHex := by
    rw [hB]
    have := pySlice_of_append (pre ++ [m]) idHex
      ((48 + n) :: hs ++ t0 :: t1 :: t2 :: t3 :: rest)
      ((pre.length : Int) + 1) ((pre.length : Int) + 1 + (idL : Int))
      (by simp only [List.length_append, List.length_cons, List.length_nil]; omega)
      (by simp only [List.length_append, List.length_cons, List.length_nil, hlen]; omega)
    simpa using this
  have f4 : B.getD (pre.length + 1 + idL) 0 = 48 + n := by
    rw [hB]
    simpa using getD_of_append (pre ++ m :: idHex)
      ((48 + n) :: hs ++ t0 :: t1 :: t2 :: t3 :: rest)
      0 (pre.length + 1 + idL) 0
      (by simp only [List.length_append, List.length_cons, hlen]; omega)
  have f5 : ((48 + n : Nat) : Int) - 48 = (n : Int) := by push_cast; ring
  have f6 : pyIndex B ((pre.length : Int) + (2 + (idL : Int) + (n : Int) * 2 + 1) - 1)
      = some t0 := by
    rw [hB]
    have := pyIndex_of_append (pre ++ m :: idHex ++ [48 + n] ++ hs)
      (t0 :: t1 :: t2 :: t3 :: rest) 0
      ((pre.length : Int) + (2 + (idL : Int) + (n : Int) * 2 + 1) - 1)
      (by simp only [List.length_append, List.length_cons, List.length_nil, hlen, hhs]
          push_cast
          ring)
      (by simp)
    simpa using this
  have f7 : pySlice B ((pre.length : Int) + 2 + (idL : Int))
      ((pre.length : Int) + 2 + (idL : Int) + (n : Int) * 2) = hs := by
    rw [hB]
    have := pySlice_of_append (pre ++ m :: idHex ++ [48 + n]) hs
      (t0 :: t1 :: t2 :: t3 :: rest)
      ((pre.length : Int) + 2 + (idL : Int))
      ((pre.length : Int) + 2 + (idL : Int) + (n : Int) * 2)
      (by simp only [List.length_append, List.length_cons, List.length_nil, hlen]; omega)
      (by simp only [List.length_append, List.length_cons, List.length_nil, hlen, hhs]
          push_cast
          ring)
    simpa using this
  have f8 : (((pre.length : Int)) + (2 + (idL : Int) + (n : Int) * 2 + 1 + 3)).toNat
      = pre.length + (idL + 2 * n + 6) := by omega
  have f9 : pySlice B (((pre.length + (idL + 2 * n + 6) : Nat) : Int) - 4)
      ((pre.length + (idL + 2 * n + 6) : Nat) : Int) = [t0, t1, t2, t3] := by
    rw [hB]
    have := pySlice_of_append (pre ++ m :: idHex ++ (48 + n) :: hs) [t0, t1, t2, t3] rest
      (((pre.length + (idL + 2 * n + 6) : Nat) : Int) - 4)
      ((pre.length + (idL + 2 * n + 6) : Nat) : Int)
      (by simp only [List.length_append, List.length_cons, List.length_nil, hlen, hhs]
          push_cast
          ring)
      (by simp only [List.length_append, List.length_cons, List.length_nil, hlen, hhs]
          push_cast
          ring)
    simpa using this
  unfold parseAt
  simp only [f1, ← hidL, f2]
  rw [if_neg (show ¬(idL + 2 * n + 6 + rest.length < idL + 2) by omega)]
  simp only [f3, hid, f4, f5]
  rw [if_neg (show ¬(8 : Int) < (n : Int) by omega)]
  rw [if_neg (show ¬((idL + 2 * n + 6 + rest.length : Nat) : Int)
    < 2 + (idL : Int) + (n : Int) * 2 + 1 by push_cast; omega)]
  simp only [f6, hupper, eq_self_iff_true, true_and, if_true]
  rw [if_neg (show ¬((idL + 2 * n + 6 + rest.length : Nat) : Int)
    < 2 + (idL : Int) + (n : Int) * 2 + 1 + 3 by push_cast; omega)]
  simp only [f7, hdata, f8, f9, hts]

theorem parse_needMore_short (pre : List Nat) (b0 : Nat) (P2 : List Nat)
    (hshort : 1 + P2.length < (if b0 = 84 then 8 else 3) + 2) :
    parseAt (pre ++ b0 :: P2) pre.length = .needMoreData := by
  have f1 : (pre ++ b0 :: P2).getD pre.length 0 = b0 := by
    simpa using getD_of_append pre (b0 :: P2) 0 pre.length 0 (by omega)
  have f2 : (pre ++ b0 :: P2).length - pre.length = 1 + P2.length := by
    simp only [List.length_append, List.length_cons]
    omega
  unfold parseAt
  simp only [f1, f2]
  rw [if_pos hshort]

theorem parse_needMore_mid (pre idHex P2 : List Nat) (m idL n pid : Nat)
    (hidL : idL = if m = 84 then 8 else 3)
    (hlen : idHex.length = idL)
    (hid : pyIntHex idHex = some pid)
    (hn : n ≤ 8)
    (hP2 : P2.length < 2 * n + 1) :
    parseAt (pre ++ m :: idHex ++ (48 + n) :: P2) pre.length = .needMoreData := by
  set B := pre ++ m :: idHex ++ (48 + n) :: P2 with hB
  have f1 : B.getD pre.length 0 = m := by
    rw [hB]
    simpa using getD_of_append pre (m :: idHex ++ (48 + n) :: P2) 0 pre.length 0 (by omega)
  have f2 : B.length - pre.length = idL + 2 + P2.length := by
    rw [hB]
    simp only [List.length_append, List.length_cons, hlen]
    omega
  have f3 : pySlice B ((pre.length : Int) + 1) ((pre.length : Int) + 1 + (idL : Int))
      = idHex := by
    rw [hB]
    have := pySlice_of_append (pre ++ [m]) idHex ((48 + n) :: P2)
      ((pre.length : Int) + 1) ((pre.length : Int) + 1 + (idL : Int))
      (by simp only [List.length_append, List.length_cons, List.length_nil]; omega)
      (by simp only [List.length_append, List.length_cons, List.length_nil, hlen]; omega)
    simpa using this
  have f4 : B.getD (pre.length + 1 + idL) 0 = 48 + n := by
    rw [hB]
    simpa using getD_of_append (pre ++ m :: idHex) ((48 + n) :: P2)
      0 (pre.length + 1 + idL) 0
      (by simp only [List.length_append, List.length_cons, hlen]; omega)
  have f5 : ((48 + n : Nat) : Int) - 48 = (n : Int) := by push_cast; ring
  unfold parseAt
  simp only [f1, ← hidL, f2]
  rw [if_neg (show ¬(idL + 2 + P2.length < idL + 2) by omega)]
  simp only [f3, hid, f4, f5]
  rw [if_neg (show ¬(8 : Int) < (n : Int) by omega)]
  rw [if_pos (show ((idL + 2 + P2.length : Nat) : Int)
    < 2 + (idL : Int) + (n : Int) * 2 + 1 by push_cast; omega)]

theorem parse_fail_id (pre idHex rest : List Nat) (m idL lenB : Nat)
    (hidL : idL = if m = 84 then 8 else 3)
    (hlen : idHex.length = idL)
    (hid : pyIntHex idHex = none) :
    parseAt (pre ++ m :: idHex ++ lenB :: rest) pre.length = .failure (pre.length + 1) := by
  set B := pre ++ m :: idHex ++ lenB :: rest with hB
  have f1 : B.getD pre.length 0 = m := by
    rw [hB]
    simpa using getD_of_append pre (m :: idHex ++ lenB :: rest) 0 pre.length 0 (by omega)
  have f2 : B.length - pre.length = idL + 2 + rest.length := by
    rw [hB]
    simp only [List.length_append, List.length_cons, hlen]
    omega
  have f3 : pySlice B ((pre.length : Int) + 1) ((pre.length : Int) + 1 + (idL : Int))
      = idHex := by
    rw [hB]
    have := pySlice_of_append (pre ++ [m]) idHex (lenB :: rest)
      ((pre.length : Int) + 1) ((pre.length : Int) + 1 + (idL : Int))
      (by simp only [List.length_append, List.length_cons, List.length_nil]; omega)
      (by simp only [List.length_append, List.length_cons, List.length_nil, hlen]; omega)
    simpa using this
  unfold parseAt
  simp only [f1, ← hidL, f2]
  rw [if_neg (show ¬(idL + 2 + rest.length < idL + 2) by omega)]
  simp only [f3, hid]

theorem parse_fail_len (pre idHex rest : List Nat) (m idL lenB pid : Nat)
    (hidL : idL = if m = 84 then 8 else 3)
    (hlen : idHex.length = idL)
    (hid : pyIntHex idHex = some pid)
    (hbig : 56 < lenB) :
    parseAt (pre ++ m :: idHex ++ lenB :: rest) pre.length = .failure (pre.length + 1) := by
  set B := pre ++ m :: idHex ++ lenB :: rest with hB
  have f1 : B.getD pre.length 0 = m := by
    rw [hB]
    simpa using getD_of_append pre (m :: idHex ++ lenB :: rest) 0 pre.length 0 (by omega)
  have f2 : B.length - pre.length = idL + 2 + rest.length := by
    rw [hB]
    simp only [List.length_append, List.length_cons, hlen]
    omega
  have f3 : pySlice B ((pre.length : Int) + 1) ((pre.length : Int) + 1 + (idL : Int))
      = idHex := by
    rw [hB]
    have := pySlice_of_append (pre ++ [m]) idHex (lenB :: rest)
      ((pre.length : Int) + 1) ((pre.length : Int) + 1 + (idL : Int))
      (by simp only [List.length_append, List.length_cons, List.length_nil]; omega)
      (by simp only [List.length_append, List.length_cons, List.length_nil, hlen]; omega)
    simpa using this
  have f4 : B.getD (pre.length + 1 + idL) 0 = lenB := by
    rw [hB]
    simpa using getD_of_append (pre ++ m :: idHex) (lenB :: rest)
      0 (pre.length + 1 + idL) 0
      (by simp only [List.length_append, List.length_cons, hlen]; omega)
  unfold parseAt
  simp only [f1, ← hidL, f2]
  rw [if_neg (show ¬(idL + 2 + rest.length < idL + 2) by omega)]
  simp only [f3, hid, f4]
  rw [if_pos (show (8 : Int) < (lenB : Int) - 48 by omega)]

theorem parse_fail_payload (pre idHex hs rest : List Nat) (m idL n term2 pid : Nat)
    (hidL : idL = if m = 84 then 8 else 3)
    (hlen : idHex.length = idL)
    (hid : pyIntHex idHex = some pid)
    (hn : n ≤ 8)
    (hhs : hs.length = 2 * n)
    (hbad : pyA2bHex hs = none)
    (hterm : isUpperHexDigit term2 = false) :
    parseAt (pre ++ m :: idHex ++ (48 + n) :: hs ++ term2 :: rest) pre.length
      = .failure (pre.length + 1) := by
  set B := pre ++ m :: idHex ++ (48 + n) :: hs ++ term2 :: rest with hB
  have f1 : B.getD pre.length 0 = m := by
    rw [hB]
    simpa using getD_of_append pre (m :: idHex ++ (48 + n) :: hs ++ term2 :: rest)
      0 pre.length 0 (by omega)
  have f2 : B.length - pre.length = idL + 2 * n + 3 + rest.length := by
    rw [hB]
    simp only [List.length_append, List.length_cons, hlen, hhs]
    omega
  have f3 : pySlice B ((pre.length : Int) + 1) ((pre.length : Int) + 1 + (idL : Int))
      = idHex := by
    rw [hB]
    have := pySlice_of_append (pre ++ [m]) idHex ((48 + n) :: hs ++ term2 :: rest)
      ((pre.length : Int) + 1) ((pre.length : Int) + 1 + (idL : Int))
      (by simp only [List.length_append, List.length_cons, List.length_nil]; omega)
      (by simp only [List.length_append, List.length_cons, List.length_nil, hlen]; omega)
    simpa using this
  have f4 : B.getD (pre.length + 1 + idL) 0 = 48 + n := by
    rw [hB]
    simpa using getD_of_append (pre ++ m :: idHex) ((48 + n) :: hs ++ term2 :: rest)
      0 (pre.length + 1 + idL) 0
      (by simp only [List.length_append, List.length_cons, hlen]; omega)
  have f5 : ((48 + n : Nat) : Int) - 48 = (n : Int) := by push_cast; ring
  have f6 : pyIndex B ((pre.length : Int) + (2 + (idL : Int) + (n : Int) * 2 + 1) - 1)
      = some term2 := by
    rw [hB]
    have := pyIndex_of_append (pre ++ m :: idHex ++ [48 + n] ++ hs) (term2 :: rest) 0
      ((pre.length : Int) + (2 + (idL : Int) + (n : Int) * 2 + 1) - 1)
      (by simp only [List.length_append, List.length_cons, List.length_nil, hlen, hhs]
          push_cast
          ring)
      (by simp)
    simpa using this
  have f7 : pySlice B ((pre.length : Int) + 2 + (idL : Int))
      ((pre.length : Int) + 2 + (idL : Int) + (n : Int) * 2) = hs := by
    rw [hB]
    have := pySlice_of_append (pre ++ m :: idHex ++ [48 + n]) hs (term2 :: rest)
      ((pre.length : Int) + 2 + (idL : Int))
      ((pre.length : Int) + 2 + (idL : Int) + (n : Int) * 2)
      (by simp only [List.length_append, List.length_cons, List.length_nil, hlen]; omega)
      (by simp only [List.length_append, List.length_cons, List.length_nil, hlen, hhs]
          push_cast
          ring)
    simpa using this
  unfold parseAt
  simp only [f1, ← hidL, f2]
  rw [if_neg (show ¬(idL + 2 * n + 3 + rest.length < idL + 2) by omega)]
  simp only [f3, hid, f4, f5]
  rw [if_neg (show ¬(8 : Int) < (n : Int) by omega)]
  rw [if_neg (show ¬((idL + 2 * n + 3 + rest.length : Nat) : Int)
    < 2 + (idL : Int) + (n : Int) * 2 + 1 by push_cast; omega)]
  simp only [f6, hterm, Bool.false_eq_true, false_and, if_false, f7, hbad]

theorem parse_fail_ts (pre idHex hs rest : List Nat) (m idL n t0 t1 t2 t3 pid : Nat)
    (data : List Nat)
    (hidL : idL = if m = 84 then 8 else 3)
    (hlen : idHex.length = idL)
    (hid : pyIntHex idHex = some pid)
    (hn : n ≤ 8)
    (hhs : hs.length = 2 * n)
    (hdata : pyA2bHex hs = some data)
    (hupper : isUpperHexDigit t0 = true)
    (hts : pyIntHex [t0, t1, t2, t3] = none) :
    parseAt (pre ++ m :: idHex ++ (48 + n) :: hs ++ t0 :: t1 :: t2 :: t3 :: rest) pre.length
      = .failure (pre.length + (idL + 2 * n + 6) + 1) := by
  set B := pre ++ m :: idHex ++ (48 + n) :: hs ++ t0 :: t1 :: t2 :: t3 :: rest with hB
  have f1 : B.getD pre.length 0 = m := by
    rw [hB]
    simpa using getD_of_append pre (m :: idHex ++ (48 + n) :: hs ++ t0 :: t1 :: t2 :: t3 :: rest)
      0 pre.length 0 (by omega)
  have f2 : B.length - pre.length = idL + 2 * n + 6 + rest.length := by
    rw [hB]
    simp only [List.length_append, List.length_cons, hlen, hhs]
    omega
  have f3 : pySlice B ((pre.length : Int) + 1) ((pre.length : Int) + 1 + (idL : Int))
      = idHex := by
    rw [hB]
    have := pySlice_of_append (pre ++ [m]) idHex
      ((48 + n) :: hs ++ t0 :: t1 :: t2 :: t3 :: rest)
      ((pre.length : Int) + 1) ((pre.length : Int) + 1 + (idL : Int))
      (by simp only [List.length_append, List.length_cons, List.length_nil]; omega)
      (by simp only [List.length_append, List.length_cons, List.length_nil, hlen]; omega)
    simpa using this
  have f4 : B.getD (pre.length + 1 + idL) 0 = 48 + n := by
    rw [hB]
    simpa using getD_of_append (pre ++ m :: idHex)
      ((48 + n) :: hs ++ t0 :: t1 :: t2 :: t3 :: rest)
      0 (pre.length + 1 + idL) 0
      (by simp only [List.length_append, List.length_cons, hlen]; omega)
  have f5 : ((48 + n : Nat) : Int) - 48 = (n : Int) := by push_cast; ring
  have f6 : pyIndex B ((pre.length : Int) + (2 + (idL : Int) + (n : Int) * 2 + 1) - 1)
      = some t0 := by
    rw [hB]
    have := pyIndex_of_append (pre ++ m :: idHex ++ [48 + n] ++ hs)
      (t0 :: t1 :: t2 :: t3 :: rest) 0
      ((pre.length : Int) + (2 + (idL : Int) + (n : Int) * 2 + 1) - 1)
      (by simp only [List.length_append, List.length_cons, List.length_nil, hlen, hhs]
          push_cast
          ring)
      (by simp)
    simpa using this
  have f7 : pySlice B ((pre.length : Int) + 2 + (idL : Int))
      ((pre.length : Int) + 2 + (idL : Int) + (n : Int) * 2) = hs := by
    rw [hB]
    have := pySlice_of_append (pre ++ m :: idHex ++ [48 + n]) hs
      (t0 :: t1 :: t2 :: t3 :: rest)
      ((pre.length : Int) + 2 + (idL : Int))
      ((pre.length : Int) + 2 + (idL : Int) + (n : Int) * 2)
      (by simp only [List.length_append, List.length_cons, List.length_nil, hlen]; omega)
      (by simp only [List.length_append, List.length_cons, List.length_nil, hlen, hhs]
          push_cast
          ring)
    simpa using this
  have f8 : (((pre.length : Int)) + (2 + (idL : Int) + (n : Int) * 2 + 1 + 3)).toNat
      = pre.length + (idL + 2 * n + 6) := by omega
  have f9 : pySlice B (((pre.length + (idL + 2 * n + 6) : Nat) : Int) - 4)
      ((pre.length + (idL + 2 * n + 6) : Nat) : Int) = [t0, t1, t2, t3] := by
    rw [hB]
    have := pySlice_of_append (pre ++ m :: idHex ++ (48 + n) :: hs) [t0, t1, t2, t3] rest
      (((pre.length + (idL + 2 * n + 6) : Nat) : Int) - 4)
      ((pre.length + (idL + 2 * n + 6) : Nat) : Int)
      (by simp only [List.length_append, List.length_cons, List.length_nil, hlen, hhs]
          push_cast
          ring)
      (by simp only [List.length_append, List.length_cons, List.length_nil, hlen, hhs]
          push_cast
          ring)
    simpa using this
  unfold parseAt
  simp only [f1, ← hidL, f2]
  rw [if_neg (show ¬(idL + 2 * n + 6 + rest.length < idL + 2) by omega)]
  simp only [f3, hid, f4, f5]
  rw [if_neg (show ¬(8 : Int) < (n : Int) by omega)]
  rw [if_neg (show ¬((idL + 2 * n + 6 + rest.length : Nat) : Int)
    < 2 + (idL : Int) + (n : Int) * 2 + 1 by push_cast; omega)]
  simp only [f6, hupper, eq_self_iff_true, true_and, if_true]
  rw [if_neg (show ¬((idL + 2 * n + 6 + rest.length : Nat) : Int)
    < 2 + (idL : Int) + (n : Int) * 2 + 1 + 3 by push_cast; omega)]
  simp only [f7, hdata, f8, f9, hts]

theorem parse_fail_payload_ts (pre idHex hs rest : List Nat)
    (m idL n t0 t1 t2 t3 pid : Nat)
    (hidL : idL = if m = 84 then 8 else 3)
    (hlen : idHex.length = idL)
    (hid : pyIntHex idHex = some pid)
    (hn : n ≤ 8)
    (hhs : hs.length = 2 * n)
    (hbad : pyA2bHex hs = none)
    (hupper : isUpperHexDigit t0 = true) :
    parseAt (pre ++ m :: idHex ++ (48 + n) :: hs ++ t0 :: t1 :: t2 :: t3 :: rest) pre.length
      = .failure (pre.length + 1) := by
  set B := pre ++ m :: idHex ++ (48 + n) :: hs ++ t0 :: t1 :: t2 :: t3 :: rest with hB
  have f1 : B.getD pre.length 0 = m := by
    rw [hB]
    simpa using getD_of_append pre (m :: idHex ++ (48 + n) :: hs ++ t0 :: t1 :: t2 :: t3 :: rest)
      0 pre.length 0 (by omega)
  have f2 : B.length - pre.length = idL + 2 * n + 6 + rest.length := by
    rw [hB]
    simp only [List.length_append, List.length_cons, hlen, hhs]
    omega
  have f3 : pySlice B ((pre.length : Int) + 1) ((pre.length : Int) + 1 + (idL : Int))
      = idHex := by
    rw [hB]
    have := pySlice_of_append (pre ++ [m]) idHex
      ((48 + n) :: hs ++ t0 :: t1 :: t2 :: t3 :: rest)
      ((pre.length : Int) + 1) ((pre.length : Int) + 1 + (idL : Int))
      (by simp only [List.length_append, List.length_cons, List.length_nil]; omega)
      (by simp only [List.length_append, List.length_cons, List.length_nil, hlen]; omega)
    simpa using this
  have f4 : B.getD (pre.length + 1 + idL) 0 = 48 + n := by
    rw [hB]
    simpa using getD_of_append (pre ++ m :: idHex)
      ((48 + n) :: hs ++ t0 :: t1 :: t2 :: t3 :: rest)
      0 (pre.length + 1 + idL) 0
      (by simp only [List.length_append, List.length_cons, hlen]; omega)
  have f5 : ((48 + n : Nat) : Int) - 48 = (n : Int) := by push_cast; ring
  have f6 : pyIndex B ((pre.length : Int) + (2 + (idL : Int) + (n : Int) * 2 + 1) - 1)
      = some t0 := by
    rw [hB]
    have := pyIndex_of_append (pre ++ m :: idHex ++ [48 + n] ++ hs)
      (t0 :: t1 :: t2 :: t3 :: rest) 0
      ((pre.length : Int) + (2 + (idL : Int) + (n : Int) * 2 + 1) - 1)
      (by simp only [List.length_append, List.length_cons, List.length_nil, hlen, hhs]
          push_cast
          ring)
      (by simp)
    simpa using this
  have f7 : pySlice B ((pre.length : Int) + 2 + (idL : Int))
      ((pre.length : Int) + 2 + (idL : Int) + (n : Int) * 2) = hs := by
    rw [hB]
    have := pySlice_of_append (pre ++ m :: idHex ++ [48 + n]) hs
      (t0 :: t1 :: t2 :: t3 :: rest)
      ((pre.length : Int) + 2 + (idL : Int))
      ((pre.length : Int) + 2 + (idL : Int) + (n : Int) * 2)
      (by simp only [List.length_append, List.length_cons, List.length_nil, hlen]; omega)
      (by simp only [List.length_append, List.length_cons, List.length_nil, hlen, hhs]
          push_cast
          ring)
    simpa using this
  unfold parseAt
  simp only [f1, ← hidL, f2]
  rw [if_neg (show ¬(idL + 2 * n + 6 + rest.length < idL + 2) by omega)]
  simp only [f3, hid, f4, f5]
  rw [if_neg (show ¬(8 : Int) < (n : Int) by omega)]
  rw [if_neg (show ¬((idL + 2 * n + 6 + rest.length : Nat) : Int)
    < 2 + (idL : Int) + (n : Int) * 2 + 1 by push_cast; omega)]
  simp only [f6, hupper, eq_self_iff_true, true_and, if_true]
  rw [if_neg (show ¬((idL + 2 * n + 6 + rest.length : Nat) : Int)
    < 2 + (idL : Int) + (n : Int) * 2 + 1 + 3 by push_cast; omega)]
  simp only [f7, hbad]

/-! ## Structure of encoded frames and encoded streams -/

/-- The byte stream carrying a sequence of frames: the concatenation of their
wire lines, as produced by successive `_send_frame` calls. -/
def encodeStream (L : List TxFrame) : List Nat := (L.map send_frame_line).flatten

@[simp] theorem encodeStream_nil : encodeStream [] = [] := rfl

@[simp] theorem encodeStream_cons (f : TxFrame) (L : List TxFrame) :
    encodeStream (f :: L) = send_frame_line f ++ encodeStream L := rfl

theorem valid_id_lt (f : TxFrame) (h : ValidTx f) :
    f.id < 16 ^ (if f.extended then 8 else 3) := by
  obtain ⟨-, -, h3⟩ := h
  by_cases he : f.extended = true
  · rw [if_pos he] at h3 ⊢
    have e1 : (2 : ℕ) ^ 29 = 536870912 := by norm_num
    have e2 : (16 : ℕ) ^ 8 = 4294967296 := by norm_num
    rw [e1] at h3
    rw [e2]
    omega
  · rw [if_neg he] at h3 ⊢
    have e1 : (2 : ℕ) ^ 11 = 2048 := by norm_num
    have e2 : (16 : ℕ) ^ 3 = 4096 := by norm_num
    rw [e1] at h3
    rw [e2]
    omega

theorem send_frame_line_decomp (f : TxFrame) (h : ValidTx f) :
    send_frame_line f
      = (if f.extended then 84 else 116)
          :: pyHexPadUpper f.id (if f.extended then 8 else 3)
          ++ (48 + f.data.length) :: b2aHex f.data ++ [13] := by
  unfold send_frame_line
  rw [pyFormatDec_single f.data.length (by obtain ⟨h1, -, -⟩ := h; omega)]
  by_cases he : f.extended <;> simp [he, List.cons_append, List.append_assoc]

theorem length_pad_id (f : TxFrame) (h : ValidTx f) :
    (pyHexPadUpper f.id (if f.extended then 8 else 3)).length
      = (if f.extended then 8 else 3) :=
  length_pyHexPadUpper _ _ (valid_id_lt f h) (by split <;> omega)

theorem length_send_frame_line (f : TxFrame) (h : ValidTx f) :
    (send_frame_line f).length = (if f.extended then 8 else 3) + 2 * f.data.length + 3 := by
  rw [send_frame_line_decomp f h]
  simp only [List.length_append, List.length_cons, List.length_nil,
    length_b2aHex, length_pad_id f h]
  omega

/-- A buffer tail the decoder must wait on: empty, or a strict partial
fragment of some valid frame's wire line. -/
def PendingTail (P : List Nat) : Prop :=
  P = [] ∨ ∃ f t, ValidTx f ∧ P ++ t = send_frame_line f ∧ t ≠ []

theorem append_split (A t B C : List Nat) (h : A ++ t = B ++ C)
    (hlen : B.length ≤ A.length) :
    ∃ D, A = B ++ D ∧ D ++ t = C := by
  refine ⟨A.drop B.length, ?_, ?_⟩
  · have h1 : A.take B.length = B := by
      have h2 : (A ++ t).take B.length = (B ++ C).take B.length := by rw [h]
      rw [List.take_append_of_le_length hlen, List.take_left] at h2
      exact h2
    conv_lhs => rw [← List.take_append_drop B.length A]
    rw [h1]
  · have h2 : (A ++ t).drop B.length = (B ++ C).drop B.length := by rw [h]
    rw [List.drop_append_of_le_length hlen, List.drop_left] at h2
    exact h2

theorem parse_needMore_of_mid (pre P : List Nat) (f : TxFrame) (t : List Nat)
    (hv : ValidTx f) (happ : P ++ t = send_frame_line f) (hne : P ≠ []) (htne : t ≠ []) :
    parseAt (pre ++ P) pre.length = .needMoreData := by
  have h8 : f.data.length ≤ 8 := hv.1
  have hdec := send_frame_line_decomp f hv
  have hpad := length_pad_id f hv
  have henc := length_send_frame_line f hv
  have hml : (if f.extended then (84 : Nat) else 116) = 84
      ∨ (if f.extended then (84 : Nat) else 116) = 116 := by
    by_cases he : f.extended <;> simp [he]
  have hidL : (if f.extended then (8 : Nat) else 3)
      = if (if f.extended then (84 : Nat) else 116) = 84 then 8 else 3 := by
    by_cases he : f.extended <;> simp [he]
  have hlenP : P.length < (send_frame_line f).length := by
    have hx : P.length + t.length = (send_frame_line f).length := by
      rw [← happ]
      simp
    have ht : 0 < t.length := List.length_pos.mpr htne
    omega
  by_cases hcase : P.length < (if f.extended then 8 else 3) + 2
  · obtain ⟨b0, P2, rfl⟩ : ∃ b0 P2, P = b0 :: P2 := by
      cases P with
      | nil => exact absurd rfl hne
      | cons a b => exact ⟨a, b, rfl⟩
    have hb0 : b0 = (if f.extended then 84 else 116) := by
      rw [hdec] at happ
      simp only [List.cons_append] at happ
      exact (List.cons.injEq _ _ _ _).mp happ |>.1
    apply parse_needMore_short
    subst hb0
    rw [← hidL]
    simp only [List.length_cons] at hcase
    omega
  · have hsplit : P ++ t
        = ((if f.extended then 84 else 116)
            :: pyHexPadUpper f.id (if f.extended then 8 else 3) ++ [48 + f.data.length])
          ++ (b2aHex f.data ++ [13]) := by
      rw [happ, hdec]
      simp
    obtain ⟨P2, hP, hP2t⟩ := append_split P t _ _ hsplit
      (by simp only [List.length_cons, List.length_append, List.length_nil, hpad]; omega)
    have hP2len : P2.length < 2 * f.data.length + 1 := by
      have hx : P.length
          = (if f.extended then 8 else 3) + 2 + P2.length := by
        rw [hP]
        simp only [List.length_cons, List.length_append, List.length_nil, hpad]
        try omega
      omega
    have := parse_needMore_mid pre (pyHexPadUpper f.id (if f.extended then 8 else 3)) P2
      (if f.extended then 84 else 116) (if f.extended then 8 else 3) f.data.length f.id
      hidL hpad (pyIntHex_pad _ _) h8 hP2len
    rw [hP]
    simpa using this

/-! ## The scan loop over an encoded stream -/

theorem getD_append_head (pre : List Nat) (x : Nat) (X : List Nat) :
    (pre ++ x :: X).getD pre.length 0 = x := by
  simpa using getD_of_append pre (x :: X) 0 pre.length 0 (by omega)

theorem beq_idL_extended (f : TxFrame) :
    (((if f.extended then (8 : Nat) else 3)) == 8) = f.extended := by
  by_cases he : f.extended = true
  · rw [if_pos he, he]
    rfl
  · rw [if_neg he]
    have hf : f.extended = false := by
      revert he
      cases f.extended <;> simp
    rw [hf]
    rfl

theorem skipToMarker_at (buf : List Nat) (pos : Nat) (hlt : pos < buf.length)
    (hm : buf.getD pos 0 = 84 ∨ buf.getD pos 0 = 116) :
    skipToMarker buf pos = pos := by
  unfold skipToMarker
  obtain ⟨k, hk⟩ : ∃ k, buf.length - pos = k + 1 := ⟨buf.length - pos - 1, by omega⟩
  rw [hk]
  simp only [skipToMarkerAux]
  rw [if_pos hlt, if_pos hm]

theorem skipToMarker_end (buf : List Nat) (pos : Nat) (hge : ¬pos < buf.length) :
    skipToMarker buf pos = pos := by
  unfold skipToMarker
  have hz : buf.length - pos = 0 := by omega
  rw [hz]
  rfl

theorem processLoop_stream (L : List TxFrame) :
    ∀ (fuel : Nat) (pre P : List Nat),
      (∀ f ∈ L, ValidTx f) → PendingTail P → L.length + 1 ≤ fuel →
      processLoop fuel (pre ++ (encodeStream L ++ P)) pre.length
        = (L.map rxOf, pre.length + (encodeStream L).length) := by
  induction L with
  | nil =>
    intro fuel pre P hv hP hfuel
    obtain ⟨k, rfl⟩ : ∃ k, fuel = k + 1 := ⟨fuel - 1, by omega⟩
    simp only [encodeStream_nil, List.nil_append, List.length_nil, Nat.add_zero, List.map_nil]
    by_cases hPnil : P = []
    · subst hPnil
      have hskip : skipToMarker (pre ++ []) pre.length = pre.length :=
        skipToMarker_end _ _ (by simp)
      simp only [processLoop, hskip]
      rw [if_neg (show ¬pre.length < (pre ++ ([] : List Nat)).length by simp)]
    · rcases hP with rfl | ⟨f, t, hvf, happ, htne⟩
      · exact absurd rfl hPnil
      obtain ⟨b0, P2, rfl⟩ : ∃ b0 P2, P = b0 :: P2 := by
        cases P with
        | nil => exact absurd rfl hPnil
        | cons a b => exact ⟨a, b, rfl⟩
      have hb0 : b0 = (if f.extended then 84 else 116) := by
        rw [send_frame_line_decomp f hvf] at happ
        simp only [List.cons_append] at happ
        exact (List.cons.injEq _ _ _ _).mp happ |>.1
      have hgd : (pre ++ b0 :: P2).getD pre.length 0 = b0 := getD_append_head pre b0 P2
      have hlt : pre.length < (pre ++ b0 :: P2).length := by
        simp only [List.length_append, List.length_cons]
        omega
      have hskip : skipToMarker (pre ++ b0 :: P2) pre.length = pre.length := by
        refine skipToMarker_at _ _ hlt ?_
        rw [hgd, hb0]
        by_cases he : f.extended = true
        · rw [if_pos he]
          left
          rfl
        · rw [if_neg he]
          right
          rfl
      have hparse := parse_needMore_of_mid pre (b0 :: P2) f t hvf happ (by simp) htne
      simp only [processLoop, hskip, if_pos hlt, hparse]
  | cons f L2 ih =>
    intro fuel pre P hv hP hfuel
    obtain ⟨k, rfl⟩ : ∃ k, fuel = k + 1 := ⟨fuel - 1, by omega⟩
    have hvf : ValidTx f := hv f (by simp)
    have hv2 : ∀ g ∈ L2, ValidTx g := fun g hg => hv g (by simp [hg])
    have hdec := send_frame_line_decomp f hvf
    have hpad := length_pad_id f hvf
    have h8 : f.data.length ≤ 8 := hvf.1
    have hbytes : ∀ b ∈ f.data, b < 256 := hvf.2.1
    have hidL : (if f.extended then (8 : Nat) else 3)
        = if (if f.extended then (84 : Nat) else 116) = 84 then 8 else 3 := by
      by_cases he : f.extended = true <;> simp [he]
    have hgd : (pre ++ (send_frame_line f ++ (encodeStream L2 ++ P))).getD pre.length 0
        = (if f.extended then 84 else 116) := by
      rw [hdec]
      simpa using getD_append_head pre (if f.extended then 84 else 116)
        (pyHexPadUpper f.id (if f.extended then 8 else 3)
          ++ (48 + f.data.length) :: b2aHex f.data ++ 13 :: (encodeStream L2 ++ P))
    have hlt : pre.length < (pre ++ (send_frame_line f ++ (encodeStream L2 ++ P))).length := by
      simp only [List.length_append, length_send_frame_line f hvf]
      omega
    have hskip : skipToMarker (pre ++ (send_frame_line f ++ (encodeStream L2 ++ P)))
        pre.length = pre.length := by
      refine skipToMarker_at _ _ hlt ?_
      rw [hgd]
      by_cases he : f.extended = true
      · rw [if_pos he]
        left
        rfl
      · rw [if_neg he]
        right
        rfl
    have hparse : parseAt (pre ++ (send_frame_line f ++ (encodeStream L2 ++ P))) pre.length
        = .success (rxOf f)
            (pre.length + ((if f.extended then 8 else 3) + 2 * f.data.length + 3)) := by
      have hsucc := parse_success_core pre
        (pyHexPadUpper f.id (if f.extended then 8 else 3)) (b2aHex f.data)
        (encodeStream L2 ++ P) (if f.extended then 84 else 116)
        (if f.extended then 8 else 3) f.data.length 13 f.id f.data
        hidL hpad (pyIntHex_pad _ _) h8 (length_b2aHex _)
        (pyA2bHex_b2aHex f.data hbytes) (by decide)
      rw [beq_idL_extended f] at hsucc
      rw [hdec]
      have hfr : (⟨f.id, f.data, f.extended, none⟩ : RxFrame) = rxOf f := rfl
      rw [hfr] at hsucc
      simpa using hsucc
    have hih := ih k (pre ++ send_frame_line f) P hv2 hP
      (by simp only [List.length_cons] at hfuel; omega)
    rw [List.append_assoc] at hih
    simp only [List.length_append, length_send_frame_line f hvf] at hih
    simp only [encodeStream_cons, List.append_assoc, List.map_cons]
    simp only [processLoop, hskip, if_pos hlt, hparse, hih]
    simp only [Prod.mk.injEq]
    refine ⟨by simp, ?_⟩
    simp only [List.length_append, length_send_frame_line f hvf]
    omega

theorem length_send_frame_line_pos (f : TxFrame) (h : ValidTx f) :
    1 ≤ (send_frame_line f).length := by
  rw [length_send_frame_line f h]
  split <;> omega

theorem length_encodeStream_ge (L : List TxFrame) (hv : ∀ f ∈ L, ValidTx f) :
    L.length ≤ (encodeStream L).length := by
  induction L with
  | nil => simp
  | cons f L2 ih =>
    have h1 := length_send_frame_line_pos f (hv f (by simp))
    have h2 := ih (fun g hg => hv g (by simp [hg]))
    simp only [encodeStream_cons, List.length_append, List.length_cons]
    omega

/-- Decoding one buffer holding a whole encoded stream followed by a pending
tail: every complete frame is emitted, the scan stops at the tail. -/
theorem rx_process_buffer_eq (L : List TxFrame) (P : List Nat)
    (hv : ∀ f ∈ L, ValidTx f) (hP : PendingTail P) :
    rx_process_buffer (encodeStream L ++ P) = (L.map rxOf, (encodeStream L).length) := by
  unfold rx_process_buffer
  have hfuel : L.length + 1 ≤ (encodeStream L ++ P).length + 1 := by
    have := length_encodeStream_ge L hv
    simp only [List.length_append]
    omega
  have := processLoop_stream L ((encodeStream L ++ P).length + 1) [] P hv hP hfuel
  simpa using this

/-- Any split of an encoded stream decomposes as whole frames plus a strict
partial fragment of the next frame. -/
theorem enc_take_decomp :
    ∀ (M : List TxFrame) (B t : List Nat), (∀ f ∈ M, ValidTx f) →
      B ++ t = encodeStream M →
      ∃ M1 M2 P, M = M1 ++ M2 ∧ B = encodeStream M1 ++ P ∧ P ++ t = encodeStream M2 ∧
        (P = [] ∨ ∃ f M3 u, M2 = f :: M3 ∧ P ++ u = send_frame_line f ∧ u ≠ []) := by
  intro M
  induction M with
  | nil =>
    intro B t hv h
    rw [encodeStream_nil] at h
    obtain ⟨rfl, rfl⟩ := List.append_eq_nil.mp h
    exact ⟨[], [], [], rfl, by simp, by simp, Or.inl rfl⟩
  | cons f M3 ihM =>
    intro B t hv h
    have hvf := hv f (by simp)
    by_cases hlen : (send_frame_line f).length ≤ B.length
    · obtain ⟨D, hB, hDt⟩ := append_split B t (send_frame_line f) (encodeStream M3)
        (by rw [h, encodeStream_cons]) hlen
      obtain ⟨M1, M2, P, hM, hD, hPt, hPmid⟩ :=
        ihM D t (fun g hg => hv g (by simp [hg])) hDt
      refine ⟨f :: M1, M2, P, by rw [List.cons_append, ← hM], ?_, hPt, hPmid⟩
      rw [hB, hD, encodeStream_cons, List.append_assoc]
    · push_neg at hlen
      obtain ⟨u, henc, _⟩ := append_split (send_frame_line f) (encodeStream M3) B t
        (by rw [encodeStream_cons] at h; exact h.symm) (by omega)
      have hune : u ≠ [] := by
        intro hnil
        rw [hnil, List.append_nil] at henc
        have := congrArg List.length henc
        omega
      exact ⟨[], f :: M3, B, by simp, by simp, h, Or.inr ⟨f, M3, u, rfl, henc.symm, hune⟩⟩

/-- Feeding the stream in chunks with tail retention emits exactly the encoded
frames, whatever the chunk boundaries. -/
theorem rx_feed_chunks_eq :
    ∀ (chunks : List (List Nat)) (M : List TxFrame) (P : List Nat),
      (∀ f ∈ M, ValidTx f) →
      (P = [] ∨ ∃ f M3 u, M = f :: M3 ∧ P ++ u = send_frame_line f ∧ u ≠ []) →
      P ++ chunks.flatten = encodeStream M →
      rx_feed_chunks chunks P = M.map rxOf := by
  intro chunks
  induction chunks with
  | nil =>
    intro M P hv hmid hflat
    simp only [List.flatten_nil, List.append_nil] at hflat
    rcases hmid with rfl | ⟨f, M3, u, rfl, hPu, hune⟩
    · cases M with
      | nil => rfl
      | cons g M4 =>
        exfalso
        have hlen := congrArg List.length hflat
        have h1 := length_send_frame_line_pos g (hv g (by simp))
        simp only [List.length_nil, encodeStream_cons, List.length_append] at hlen
        omega
    · exfalso
      have h1 := congrArg List.length hPu
      have h2 := congrArg List.length hflat
      have hu : 0 < u.length := List.length_pos.mpr hune
      simp only [List.length_append, encodeStream_cons] at h1 h2
      omega
  | cons c cs ih =>
    intro M P hv hmid hflat
    have hBt : (P ++ c) ++ cs.flatten = encodeStream M := by
      rw [List.flatten_cons, ← List.append_assoc] at hflat
      exact hflat
    obtain ⟨M1, M2, P2, hM, hB, hP2t, hmid2⟩ := enc_take_decomp M (P ++ c) cs.flatten hv hBt
    have hv1 : ∀ g ∈ M1, ValidTx g := fun g hg => hv g (by rw [hM]; simp [hg])
    have hv2 : ∀ g ∈ M2, ValidTx g := fun g hg => hv g (by rw [hM]; simp [hg])
    have hPend : PendingTail P2 := by
      rcases hmid2 with rfl | ⟨g, M4, u, hM2, hgu, hune⟩
      · exact Or.inl rfl
      · exact Or.inr ⟨g, u, hv2 g (by rw [hM2]; simp), hgu, hune⟩
    have hproc := rx_process_buffer_eq M1 P2 hv1 hPend
    have hdrop : (encodeStream M1 ++ P2).drop (encodeStream M1).length = P2 :=
      List.drop_left _ _
    simp only [rx_feed_chunks, hB, hproc, hdrop]
    rw [ih M2 P2 hv2 hmid2 hP2t, hM]
    simp [List.map_append]

/-! ## Claim theorems -/

/-- C1: for every valid CAN frame (standard or extended, identifier fitting
the width implied by the extended flag, payload length at most 8), encoding
with `_send_frame`'s line builder and decoding the bytes yields exactly one
frame with the same identifier, extended flag and payload, carrying no
hardware timestamp; and the encoded line has no timestamp field (its length
is marker + id digits + length digit + payload hex + terminator only). -/
theorem C1_encode_decode_roundtrip (f : TxFrame) (h : ValidTx f) :
    rx_process_buffer (send_frame_line f) = ([rxOf f], (send_frame_line f).length) ∧
    (send_frame_line f).length
      = 2 + (if f.extended then 8 else 3) + 2 * f.data.length + 1 ∧
    (rxOf f).tsHardware = none := by
  refine ⟨?_, ?_, rfl⟩
  · have hx := rx_process_buffer_eq [f] [] (by simpa using h) (Or.inl rfl)
    simpa using hx
  · rw [length_send_frame_line f h]
    ring

theorem C1_witness :
    ValidTx ⟨291, [222, 173], false⟩ ∧
    (rx_process_buffer (send_frame_line ⟨291, [222, 173], false⟩)
        = ([rxOf ⟨291, [222, 173], false⟩], (send_frame_line ⟨291, [222, 173], false⟩).length) ∧
      (send_frame_line ⟨291, [222, 173], false⟩).length
        = 2 + (if (⟨291, [222, 173], false⟩ : TxFrame).extended then 8 else 3)
            + 2 * (⟨291, [222, 173], false⟩ : TxFrame).data.length + 1 ∧
      (rxOf ⟨291, [222, 173], false⟩).tsHardware = none) :=
  ⟨by decide, C1_encode_decode_roundtrip ⟨291, [222, 173], false⟩ (by decide)⟩

/-- C2: feeding the encoded bytes of any sequence of valid frames to the
decoder under any chunking, with each call's unconsumed tail retained and
prepended to the next chunk, yields the same decoded sequence as one single
call on all the bytes — namely the encoded frames themselves, in order. -/
theorem C2_chunked_decode_eq_single (L : List TxFrame) (chunks : List (List Nat))
    (hv : ∀ f ∈ L, ValidTx f) (hj : chunks.flatten = encodeStream L) :
    rx_feed_chunks chunks [] = (rx_process_buffer chunks.flatten).1 ∧
    rx_feed_chunks chunks [] = L.map rxOf := by
  have h1 : rx_feed_chunks chunks [] = L.map rxOf :=
    rx_feed_chunks_eq chunks L [] hv (Or.inl rfl) (by simpa using hj)
  have h2 : rx_process_buffer chunks.flatten = (L.map rxOf, (encodeStream L).length) := by
    rw [hj]
    have hx := rx_process_buffer_eq L [] hv (Or.inl rfl)
    simpa using hx
  exact ⟨by rw [h1, h2], h1⟩

theorem C2_witness :
    (∀ f ∈ ([⟨291, [171], false⟩, ⟨1752286, [], true⟩] : List TxFrame), ValidTx f) ∧
    ([[116, 49, 50], [51, 49, 97], [98, 13], [84, 48, 48, 49, 65, 66, 67, 68, 69, 48, 13]]
        : List (List Nat)).flatten
      = encodeStream [⟨291, [171], false⟩, ⟨1752286, [], true⟩] ∧
    (rx_feed_chunks
        [[116, 49, 50], [51, 49, 97], [98, 13], [84, 48, 48, 49, 65, 66, 67, 68, 69, 48, 13]] []
        = (rx_process_buffer
            ([[116, 49, 50], [51, 49, 97], [98, 13],
              [84, 48, 48, 49, 65, 66, 67, 68, 69, 48, 13]] : List (List Nat)).flatten).1 ∧
      rx_feed_chunks
        [[116, 49, 50], [51, 49, 97], [98, 13], [84, 48, 48, 49, 65, 66, 67, 68, 69, 48, 13]] []
        = ([⟨291, [171], false⟩, ⟨1752286, [], true⟩] : List TxFrame).map rxOf) :=
  ⟨by decide, by decide,
    C2_chunked_decode_eq_single [⟨291, [171], false⟩, ⟨1752286, [], true⟩]
      [[116, 49, 50], [51, 49, 97], [98, 13], [84, 48, 48, 49, 65, 66, 67, 68, 69, 48, 13]]
      (by decide) (by decide)⟩

/-- C3 counterexample: the claim says the fixed table maps the nine supported
bit rates onto codes 0..7, but the source maps 1 Mbps to code 8 (and 8 Mbps
to code 7), so the code range is 0..8 and the claim as stated is false. -/
theorem C3_counterexample :
    speed_code 1000000 = some 8 ∧ ¬(∀ r c, speed_code r = some c → c ≤ 7) := by
  refine ⟨rfl, fun hall => ?_⟩
  exact absurd (hall 1000000 8 rfl) (by omega)

/-- C3 amended: the init sequence writes a set-bitrate command whose
single-digit code is looked up from the fixed table mapping
10k→0, 20k→1, 50k→2, 100k→3, 125k→4, 250k→5, 500k→6, 8M→7, 1M→8 (codes
0..8), and looking up any bit rate outside the table fails (`KeyError`),
in which case nothing is written. -/
theorem C3_speed_code_table :
    (speed_code 10000 = some 0 ∧ speed_code 20000 = some 1 ∧ speed_code 50000 = some 2 ∧
      speed_code 100000 = some 3 ∧ speed_code 125000 = some 4 ∧ speed_code 250000 = some 5 ∧
      speed_code 500000 = some 6 ∧ speed_code 8000000 = some 7 ∧ speed_code 1000000 = some 8) ∧
    (∀ r, r ∉ ([10000, 20000, 50000, 100000, 125000, 250000, 500000, 8000000, 1000000]
        : List Nat) → speed_code r = none) ∧
    (∀ br rx code, speed_code (br.getD DEFAULT_BITRATE) = some code →
      ∃ tl, (init_adapter br rx).2 = sCmd code :: tl) ∧
    (∀ br rx, speed_code (br.getD DEFAULT_BITRATE) = none →
      init_adapter br rx = (.error .keyError, [])) := by
  refine ⟨by decide, ?_, ?_, ?_⟩
  · intro r hr
    unfold speed_code
    split <;> simp_all
  · intro br rx code hcode
    rcases h1 : wait_for_ack rx with e | rx2
    · refine ⟨[], ?_⟩
      unfold init_adapter
      simp only [hcode, h1]
    · rcases h2 : wait_for_ack rx2 with e2 | u
      · refine ⟨[oCmd], ?_⟩
        unfold init_adapter
        simp only [hcode, h1, h2]
      · refine ⟨[oCmd], ?_⟩
        unfold init_adapter
        simp only [hcode, h1, h2]
  · intro br rx h
    unfold init_adapter
    rw [h]

theorem C3_witness :
    speed_code 300000 = none ∧
    init_adapter (some 300000) [] = (.error .keyError, []) ∧
    (∃ tl, (init_adapter none [some 13, some 13]).2 = sCmd 8 :: tl) :=
  ⟨C3_speed_code_table.2.1 300000 (by decide),
   C3_speed_code_table.2.2.2 (some 300000) [] rfl,
   C3_speed_code_table.2.2.1 none [some 13, some 13] 8 rfl⟩

/-- The end-to-end test vector `t1238DEADBEEF12345678\r`. -/
def endToEndLine : List Nat :=
  [116, 49, 50, 51, 56, 68, 69, 65, 68, 66, 69, 69, 70, 49, 50, 51, 52, 53, 54, 55, 56, 13]

/-- C4 counterexample: decoding `t1238DEADBEEF12345678\r` yields the payload
`DE AD BE EF 12 34 56 78` — the length digit is the `8` after the identifier
and the payload hex starts at `D` — not the claimed `8D EA DB EE F1 23 45 67`
(which would absorb the length digit into the payload). -/
theorem C4_counterexample :
    rx_process_buffer endToEndLine
      = ([⟨291, [222, 173, 190, 239, 18, 52, 86, 120], false, none⟩], 22) ∧
    ([222, 173, 190, 239, 18, 52, 86, 120] : List Nat)
      ≠ [141, 234, 219, 238, 241, 35, 69, 103] := by
  exact ⟨by decide, by decide⟩

/-- C4 amended: decoding `t1238DEADBEEF12345678\r` — in one buffer, or split
at any boundary across two reads with the tail retained — produces exactly one
standard frame with identifier 0x123 and payload `DE AD BE EF 12 34 56 78`,
with no hardware timestamp attached. -/
theorem C4_decode_endToEnd :
    (∀ k, k ≤ 22 →
      rx_feed_chunks [List.take k endToEndLine, List.drop k endToEndLine] []
        = [⟨291, [222, 173, 190, 239, 18, 52, 86, 120], false, none⟩]) ∧
    rx_process_buffer endToEndLine
      = ([⟨291, [222, 173, 190, 239, 18, 52, 86, 120], false, none⟩], 22) := by
  exact ⟨by decide, by decide⟩

theorem C4_witness :
    5 ≤ 22 ∧
    rx_feed_chunks [List.take 5 endToEndLine, List.drop 5 endToEndLine] []
      = [⟨291, [222, 173, 190, 239, 18, 52, 86, 120], false, none⟩] :=
  ⟨by decide, C4_decode_endToEnd.1 5 (by decide)⟩

/-- C5 counterexample: the fragment `t1230a123\r`, whose appended 4-digit
timestamp `a123` begins with a lowercase hex letter, is NOT classified as
carrying a hardware timestamp: the decoder emits the frame with no hardware
timestamp (the peek tests membership in `b'0123456789ABCDEF'` only), while
the same fragment with `A123` is classified as carrying one. -/
theorem C5_counterexample :
    rx_process_buffer [116, 49, 50, 51, 48, 97, 49, 50, 51, 13]
      = ([⟨291, [], false, none⟩], 10) ∧
    rx_process_buffer [116, 49, 50, 51, 48, 65, 49, 50, 51, 13]
      = ([⟨291, [], false, some 41251⟩], 10) := by
  exact ⟨by decide, by decide⟩

/-- C5 amended: for every well-formed fragment, the byte at the terminator
position is classified as "hardware timestamp present" exactly when it is a
decimal digit or uppercase `A`-`F` (the set `b'0123456789ABCDEF'`): any other
byte — lowercase hex letters included — is treated as the fragment terminator
and the frame is emitted with no timestamp, while an uppercase-hex byte
starts a 4-digit timestamp that is parsed and attached. -/
theorem C5_ts_classification
    (pre idHex hs : List Nat) (m idL n pid : Nat) (data : List Nat)
    (hidL : idL = if m = 84 then 8 else 3)
    (hlen : idHex.length = idL)
    (hid : pyIntHex idHex = some pid)
    (hn : n ≤ 8)
    (hhs : hs.length = 2 * n)
    (hdata : pyA2bHex hs = some data) :
    (∀ term2 rest2, isUpperHexDigit term2 = false →
      parseAt (pre ++ m :: idHex ++ (48 + n) :: hs ++ term2 :: rest2) pre.length
        = .success ⟨pid, data, idL == 8, none⟩ (pre.length + (idL + 2 * n + 3))) ∧
    (∀ t0 t1 t2 t3 rest2 tsv, isUpperHexDigit t0 = true →
      pyIntHex [t0, t1, t2, t3] = some tsv →
      parseAt (pre ++ m :: idHex ++ (48 + n) :: hs ++ t0 :: t1 :: t2 :: t3 :: rest2) pre.length
        = .success ⟨pid, data, idL == 8, some tsv⟩ (pre.length + (idL + 2 * n + 6))) ∧
    (isUpperHexDigit 97 = false ∧ isUpperHexDigit 65 = true) :=
  ⟨fun term2 rest2 ht =>
      parse_success_core pre idHex hs rest2 m idL n term2 pid data hidL hlen hid hn hhs hdata ht,
   fun t0 t1 t2 t3 rest2 tsv h1 h2 =>
      parse_success_ts_core pre idHex hs rest2 m idL n t0 t1 t2 t3 pid tsv data
        hidL hlen hid hn hhs hdata h1 h2,
   by decide, by decide⟩

theorem C5_witness :
    parseAt ([] ++ 116 :: [49, 50, 51] ++ (48 + 0) :: [] ++ 97 :: [49, 50, 51, 13])
        (List.length ([] : List Nat))
      = .success ⟨291, [], ((3 : Nat) == 8), none⟩
          (List.length ([] : List Nat) + (3 + 2 * 0 + 3)) :=
  (C5_ts_classification [] [49, 50, 51] [] 116 3 0 291 []
      (by decide) (by decide) (by decide) (by decide) (by decide) (by decide)).1
    97 [49, 50, 51, 13] (by decide)

/-- C6 counterexample: on the buffer `t1230AZZZ` the header and (empty)
payload parse, the peeked byte `A` classifies a timestamp, and the timestamp
parse of `AZZZ` raises — but the source advanced `pos` past the whole
fragment before parsing the timestamp, so the `except` handler leaves the
scan at position 10 = marker + total_length + 1, not marker + 1. -/
theorem C6_counterexample :
    parseAt [116, 49, 50, 51, 48, 65, 90, 90, 90] 0 = .failure 10 ∧
    rx_process_buffer [116, 49, 50, 51, 48, 65, 90, 90, 90] = ([], 10) ∧
    (10 : Nat) ≠ 0 + 1 := by
  exact ⟨by decide, by decide, by decide⟩

/-- C6 amended: a decoding exception while parsing the identifier (the
decoded field rejected by `int(_, 16)` — whose full acceptance, surrounding
whitespace, sign, `0x` prefix and underscores included, is modelled by
`pyInt16`; the identifier field is restricted to ASCII bytes, since non-ASCII
bytes take the UTF-8/Unicode path of `str.decode` and `int`), the length
digit (value above 8), or the payload hex (`a2b_hex` rejecting it, whether
the post-payload byte classifies a hardware timestamp or not) makes the
scanner resume exactly one position past the marker byte; but a
hardware-timestamp parse error (`int(_, 16)` on the raw timestamp bytes) is
raised after the position was already advanced, so the scanner resumes at
marker + total_length + 1, one past the end of the fragment including its
timestamp. -/
theorem C6_error_resync :
    (∀ pre idHex rest m idL lenB, idL = (if m = 84 then 8 else 3) →
      idHex.length = idL → (∀ b ∈ idHex, b < 128) → pyInt16 idHex = none →
      parseAt (pre ++ m :: idHex ++ lenB :: rest) pre.length = .failure (pre.length + 1)) ∧
    (∀ pre idHex rest m idL lenB pid, idL = (if m = 84 then 8 else 3) →
      idHex.length = idL → pyIntHex idHex = some pid → 56 < lenB →
      parseAt (pre ++ m :: idHex ++ lenB :: rest) pre.length = .failure (pre.length + 1)) ∧
    (∀ pre idHex hs rest m idL n term2 pid, idL = (if m = 84 then 8 else 3) →
      idHex.length = idL → pyIntHex idHex = some pid → n ≤ 8 → hs.length = 2 * n →
      pyA2bHex hs = none → isUpperHexDigit term2 = false →
      parseAt (pre ++ m :: idHex ++ (48 + n) :: hs ++ term2 :: rest) pre.length
        = .failure (pre.length + 1)) ∧
    (∀ pre idHex hs rest m idL n t0 t1 t2 t3 pid, idL = (if m = 84 then 8 else 3) →
      idHex.length = idL → pyIntHex idHex = some pid → n ≤ 8 → hs.length = 2 * n →
      pyA2bHex hs = none → isUpperHexDigit t0 = true →
      parseAt (pre ++ m :: idHex ++ (48 + n) :: hs ++ t0 :: t1 :: t2 :: t3 :: rest) pre.length
        = .failure (pre.length + 1)) ∧
    (∀ pre idHex hs rest m idL n t0 t1 t2 t3 pid data, idL = (if m = 84 then 8 else 3) →
      idHex.length = idL → pyIntHex idHex = some pid → n ≤ 8 → hs.length = 2 * n →
      pyA2bHex hs = some data → isUpperHexDigit t0 = true →
      pyInt16 [t0, t1, t2, t3] = none →
      parseAt (pre ++ m :: idHex ++ (48 + n) :: hs ++ t0 :: t1 :: t2 :: t3 :: rest) pre.length
        = .failure (pre.length + (idL + 2 * n + 6) + 1)) :=
  ⟨fun pre idHex rest m idL lenB h1 h2 _hascii h3 =>
      parse_fail_id pre idHex rest m idL lenB h1 h2
        (pyIntHex_none_of_pyInt16_none idHex h3),
   fun pre idHex rest m idL lenB pid h1 h2 h3 h4 =>
      parse_fail_len pre idHex rest m idL lenB pid h1 h2 h3 h4,
   fun pre idHex hs rest m idL n term2 pid h1 h2 h3 h4 h5 h6 h7 =>
      parse_fail_payload pre idHex hs rest m idL n term2 pid h1 h2 h3 h4 h5 h6 h7,
   fun pre idHex hs rest m idL n t0 t1 t2 t3 pid h1 h2 h3 h4 h5 h6 h7 =>
      parse_fail_payload_ts pre idHex hs rest m idL n t0 t1 t2 t3 pid
        h1 h2 h3 h4 h5 h6 h7,
   fun pre idHex hs rest m idL n t0 t1 t2 t3 pid data h1 h2 h3 h4 h5 h6 h7 h8 =>
      parse_fail_ts pre idHex hs rest m idL n t0 t1 t2 t3 pid data h1 h2 h3 h4 h5 h6
        h7 (pyIntHex_none_of_pyInt16_none [t0, t1, t2, t3] h8)⟩

theorem C6_witness :
    parseAt ([] ++ 116 :: [49, 50, 51] ++ (48 + 0) :: [] ++ 65 :: 90 :: 90 :: 90 :: [])
        (List.length ([] : List Nat))
      = .failure (List.length ([] : List Nat) + (3 + 2 * 0 + 6) + 1) :=
  C6_error_resync.2.2.2.2 [] [49, 50, 51] [] [] 116 3 0 65 90 90 90 291 []
    (by decide) (by decide) (by decide) (by decide) (by decide) (by decide)
    (by decide) (by decide)

/-- C7: the acknowledgement wait reads single bytes in a loop, discarding
every byte that is neither ACK (`\r`) nor NACK (`0x07`); a read returning no
byte raises the timeout error, a NACK byte raises the NACK error, and the
wait returns only after an ACK; consequently a NACK received right after the
set-bitrate command makes init fail with the NACK error before the
open-channel command is ever written. -/
theorem C7_wait_for_ack :
    (∀ rest, wait_for_ack (none :: rest) = .error (.driverError "SLCAN ACK timeout")) ∧
    (∀ rest, wait_for_ack (some NACK :: rest)
      = .error (.driverError "SLCAN NACK in response")) ∧
    (∀ rest, wait_for_ack (some ACK :: rest) = .ok rest) ∧
    (∀ b rest, b ≠ NACK → b ≠ ACK →
      wait_for_ack (some b :: rest) = wait_for_ack rest) ∧
    (∀ s rest2, wait_for_ack s = .ok rest2 →
      ∃ junk, s = junk ++ some ACK :: rest2 ∧
        ∀ x ∈ junk, ∃ b, x = some b ∧ b ≠ NACK ∧ b ≠ ACK) ∧
    (∀ br code rest, speed_code (br.getD DEFAULT_BITRATE) = some code →
      init_adapter br (some NACK :: rest)
        = (.error (.driverError "SLCAN NACK in response"), [sCmd code])) := by
  refine ⟨fun rest => rfl, fun rest => rfl, fun rest => rfl, ?_, ?_, ?_⟩
  · intro b rest h1 h2
    simp only [wait_for_ack]
    rw [if_neg h1, if_neg h2]
  · intro s
    induction s with
    | nil =>
      intro rest2 h
      simp [wait_for_ack] at h
    | cons x s ih =>
      intro rest2 h
      match x with
      | none => simp [wait_for_ack] at h
      | some b =>
        by_cases hb1 : b = NACK
        · subst hb1
          simp [wait_for_ack] at h
        · by_cases hb2 : b = ACK
          · subst hb2
            rw [show wait_for_ack (some ACK :: s) = .ok s from rfl] at h
            obtain rfl : s = rest2 := by injection h
            exact ⟨[], rfl, by simp⟩
          · rw [show wait_for_ack (some b :: s) = wait_for_ack s by
              simp only [wait_for_ack]
              rw [if_neg hb1, if_neg hb2]] at h
            obtain ⟨junk, hj, hjp⟩ := ih rest2 h
            refine ⟨some b :: junk, by rw [hj]; rfl, ?_⟩
            intro x hx
            rcases List.mem_cons.mp hx with hx | hx
            · exact ⟨b, hx, hb1, hb2⟩
            · exact hjp x hx
  · intro br code rest hcode
    unfold init_adapter
    rw [hcode]
    rfl

theorem C7_witness :
    wait_for_ack [some 65, none] = .error (.driverError "SLCAN ACK timeout") ∧
    init_adapter none [some NACK, some 13]
      = (.error (.driverError "SLCAN NACK in response"), [sCmd 8]) :=
  ⟨by rw [C7_wait_for_ack.2.2.2.1 65 [none] (by decide) (by decide)]
      exact C7_wait_for_ack.1 [],
   C7_wait_for_ack.2.2.2.2.2 none 8 [some 13] rfl⟩

/-- C8 counterexample: with an unknown bit rate (300000) the `KeyError`
propagates out of the IO process, which dies without enqueueing anything; the
parent's readiness wait therefore exhausts and `SLCAN.__init__` raises the
generic "IO process did not confirm initialization" `DriverError` — not the
configuration error, which never reaches the caller. -/
theorem C8_counterexample :
    io_process_startup (some 300000) [] = ([], some PyError.keyError) ∧
    start_wait (io_process_startup (some 300000) []).1
      = .error (.driverError "IO process did not confirm initialization") ∧
    PyError.driverError "IO process did not confirm initialization" ≠ PyError.keyError := by
  exact ⟨rfl, rfl, by decide⟩

/-- C8 amended: when adapter init fails (unknown bit rate or any handshake
failure), the IO process dies with that error without putting anything —
neither the readiness signal nor the error — on the RX queue, and the
constructor's readiness wait then fails with the generic
"IO process did not confirm initialization" `DriverError` rather than the
init error itself. -/
theorem C8_init_failure_not_propagated
    (br : Option Nat) (rx : List (Option Nat)) (e : PyError)
    (h : (init_adapter br rx).1 = .error e) :
    io_process_startup br rx = ([], some e) ∧
    start_wait (io_process_startup br rx).1
      = .error (.driverError "IO process did not confirm initialization") := by
  have h2 : io_process_startup br rx = ([], some e) := by
    unfold io_process_startup
    rw [h]
  exact ⟨h2, by rw [h2]; rfl⟩

theorem C8_witness :
    (init_adapter (some 300000) []).1 = .error PyError.keyError ∧
    (io_process_startup (some 300000) [] = ([], some PyError.keyError) ∧
      start_wait (io_process_startup (some 300000) []).1
        = .error (.driverError "IO process did not confirm initialization")) :=
  ⟨rfl, C8_init_failure_not_propagated (some 300000) [] PyError.keyError rfl⟩

/-- C9: the terminator byte is never validated — for every fragment whose
header and payload parse, any byte at the terminator position outside
`b'0123456789ABCDEF'` (whether `\r`, `x`, `\n`, or anything else) still lets
the fragment be accepted and a frame be emitted with no hardware timestamp:
only membership in the uppercase hex set is tested at that position. -/
theorem C9_terminator_not_validated
    (pre idHex hs rest : List Nat) (m idL n term2 pid : Nat) (data : List Nat)
    (hidL : idL = if m = 84 then 8 else 3)
    (hlen : idHex.length = idL)
    (hid : pyIntHex idHex = some pid)
    (hn : n ≤ 8)
    (hhs : hs.length = 2 * n)
    (hdata : pyA2bHex hs = some data)
    (hterm : isUpperHexDigit term2 = false) :
    parseAt (pre ++ m :: idHex ++ (48 + n) :: hs ++ term2 :: rest) pre.length
      = .success ⟨pid, data, idL == 8, none⟩ (pre.length + (idL + 2 * n + 3)) :=
  parse_success_core pre idHex hs rest m idL n term2 pid data hidL hlen hid hn hhs hdata hterm

theorem C9_witness :
    parseAt ([] ++ 116 :: [49, 50, 51] ++ (48 + 1) :: [52, 50] ++ 120 :: [])
        (List.length ([] : List Nat))
      = .success ⟨291, [66], ((3 : Nat) == 8), none⟩
          (List.length ([] : List Nat) + (3 + 2 * 1 + 3)) :=
  C9_terminator_not_validated [] [49, 50, 51] [52, 50] [] 116 3 1 120 291 [66]
    (by decide) (by decide) (by decide) (by decide) (by decide) (by decide) (by decide)

/-- C10: calling `SLCAN.receive` with the default `timeout=None` while the IO
process is alive always raises `TypeError` (Python 3's `max(None, 0.001)`),
before the inbound queue is ever consulted: the outcome is the same whatever
the queue holds, so only a numeric timeout reaches the queue wait. -/
theorem C10_receive_none_typeerror :
    (∀ q : List RxItem, SLCAN_receive true none q = .error PyError.typeError) ∧
    (∀ q q2 : List RxItem, SLCAN_receive true none q = SLCAN_receive true none q2) :=
  ⟨fun _ => rfl, fun _ _ => rfl⟩

end Slcan
